import Mathlib

/-!
Verification of the HLIR lowering pass (`move-compiler/src/hlir/translate.rs`).

This file shallowly embeds the fragment of the lowering pass that the claims
are about.  Rust's `&mut` state (the compilation context and the target block)
is made explicit: every lowering function takes the context and the block and
returns the updated ones.  General recursion of the mutually recursive walk is
embedded with a fuel parameter; `none` signals fuel exhaustion or an internal
compiler error (`panic!`/`ICE` in the source).  Source locations are modelled
as natural numbers; symbols as lists of characters.  Types carry no locations
(the source wraps every type in a span that the lowering never inspects except
for diagnostics we do not track on types).  T-AST types arrive already
translated (the `type_`/`single_type`/`base_type` translators of the source
are structure-preserving on the fragment, so they are identities here).
-/

namespace Hlir

/-! ## Variables (`translate_var`, `display_var`, temp names) -/

abbrev Symbol := List Char

/-- A T-AST variable `N::Var_ { name, id, color }`. -/
structure NVar where
  name : Symbol
  id : Nat
  color : Nat
deriving DecidableEq

/-- Decimal digits of a natural number, as printed by Rust's `format!`. -/
def decChars (n : Nat) : List Char :=
  if n = 0 then ['0'] else ((Nat.digits 10 n).reverse.map Nat.digitChar)

/-- `NEW_NAME_DELIM = "#"`; `translate_var` mangles `name`, `id` (depth) and
`color` into the single symbol `name "#" id "#" color`. -/
def translate_var (v : NVar) : Symbol :=
  v.name ++ '#' :: (decChars v.id ++ '#' :: decChars v.color)

/-- `TEMP_PREFIX = "%"`; `is_temp_name` tests for that leading character. -/
def is_temp_name (s : Symbol) : Bool :=
  match s with
  | '%' :: _ => true
  | _ => false

inductive DisplayVar where
  | tmp
  | orig (s : Symbol)
deriving DecidableEq

/-- `display_var`: temporaries display as `Tmp`; other symbols are truncated at
the first `#` to recover the original source name. -/
def display_var (s : Symbol) : DisplayVar :=
  if is_temp_name s then .tmp else .orig (s.takeWhile (fun c => c ≠ '#'))

/-! ## H-AST types and freeze inference -/

inductive BaseType where
  | bool
  | u64
  | strct (n : Symbol)
  | unresolvedError
deriving DecidableEq

inductive SingleType where
  | base (b : BaseType)
  | ref (mut_ : Bool) (b : BaseType)
deriving DecidableEq

inductive HType where
  | unit
  | single (s : SingleType)
  | multiple (ss : List SingleType)
deriving DecidableEq

/-- Modelled from the spec: `H::Type_::from_vec` (in `hlir/ast.rs`, which is
not under `src/`) packs a list of single types into a type: zero components
give `Unit`, one gives `Single`, several give `Multiple`. -/
def HType.from_vec : List SingleType → HType
  | [] => .unit
  | [s] => .single s
  | ss => .multiple ss

/-- Modelled from the spec: `H::Type_::type_at_index` (in `hlir/ast.rs`, not
under `src/`) projects the single type of component `idx`. -/
def HType.type_at_index : HType → Nat → Option SingleType
  | .single s, _ => some s
  | .multiple ss, idx => ss.get? idx
  | .unit, _ => none

inductive Freeze where
  | notNeeded
  | point
  | sub (points : List Bool)
deriving DecidableEq

/-- `needs_freeze_single`: a point freeze is needed exactly when the actual
type is a mutable reference and the expected type an immutable one. -/
def needs_freeze_single (actual expected : SingleType) : Bool :=
  match actual, expected with
  | .ref true _, .ref false _ => true
  | _, _ => false

/-- `needs_freeze` on types.  The mismatch arm asserts `env.has_errors()` in
the source and then returns `NotNeeded`; the assertion is not modelled. -/
def needs_freeze (actual expected : HType) : Freeze :=
  match actual, expected with
  | .unit, .unit => .notNeeded
  | .single actual_type, .single expected_type =>
    if needs_freeze_single actual_type expected_type then .point else .notNeeded
  | .multiple actual_ss, .multiple actual_es =>
    let points := List.zipWith needs_freeze_single actual_ss actual_es
    if points.any (fun needs => needs) then .sub points else .notNeeded
  | _, _ => .notNeeded

/-- `freeze_single`: demote `&mut` to `&` at a single type. -/
def freeze_single (s : SingleType) : SingleType :=
  match s with
  | .ref true inner => .ref false inner
  | s => s

/-- `freeze_ty`: demote `&mut` to `&` at a type. -/
def freeze_ty (t : HType) : HType :=
  match t with
  | .single s => .single (freeze_single s)
  | t => t

/-! ## H-AST expressions, commands, statements -/

inductive UnitCase where
  | implicit
  | trailing
  | fromUser
deriving DecidableEq

inductive MoveOpAnnot where
  | fromUser
  | inferredLastUsage
  | inferredNoCopy
deriving DecidableEq

inductive HValue where
  | bool (b : Bool)
  | u64 (n : Nat)
deriving DecidableEq

mutual
inductive HExp where
  | mk (ty : HType) (loc : Nat) (e : HUExp)

inductive HUExp where
  | unit (case : UnitCase)
  | value (v : HValue)
  | move (annot : MoveOpAnnot) (var : Symbol)
  | copy (from_user : Bool) (var : Symbol)
  | constant (name : Symbol)
  | moduleCall (module : Symbol) (name : Symbol) (arguments : List HExp)
  | freezeE (e : HExp)
  | pack (strct : Symbol) (tys : List BaseType) (fields : List (Symbol × BaseType × HExp))
  | multiple (es : List HExp)
  | borrowLocal (mut_ : Bool) (var : Symbol)
  | unreachable
end

def HExp.ty : HExp → HType
  | .mk t _ _ => t

def HExp.loc : HExp → Nat
  | .mk _ l _ => l

def HExp.e : HExp → HUExp
  | .mk _ _ e => e

/-- Modelled from the spec: `H::Exp::is_unreachable` (in `hlir/ast.rs`, not
under `src/`): an expression is unreachable when it is the `Unreachable`
expression (a construct the lowering fragment never produces). -/
def HExp.is_unreachable (e : HExp) : Bool :=
  match e.e with
  | .unreachable => true
  | _ => false

inductive HLValue where
  | ignore
  | var (v : Symbol) (ty : SingleType)

inductive Command where
  | assign (lvalues : List HLValue) (e : HExp)
  | mutate (lhs rhs : HExp)
  | ret (from_user : Bool) (e : HExp)
  | abort (e : HExp)
  | breakC (name : Symbol)
  | continueC (name : Symbol)
  | ignoreAndPop (pop_num : Nat) (e : HExp)

inductive Statement where
  | command (loc : Nat) (c : Command)
  | ifElse (loc : Nat) (cond : HExp) (if_block : List Statement) (else_block : List Statement)
  | whileS (loc : Nat) (name : Symbol) (cond_block : List Statement) (cond : HExp)
      (block : List Statement)
  | loopS (loc : Nat) (name : Symbol) (has_break : Bool) (block : List Statement)

abbrev Block := List Statement

def Statement.loc : Statement → Nat
  | .command l _ => l
  | .ifElse l _ _ _ => l
  | .whileS l _ _ _ _ => l
  | .loopS l _ _ _ => l

/-! ## Divergence analysis (`divergent` and its two nested helpers) -/

/-- `divergent_while_block`: a while body diverges the loop only when its last
statement is an `Abort` or `Return` command. -/
def divergent_while_block (block : Block) : Bool :=
  match block.getLast? with
  | some (.command _ (.abort _)) => true
  | some (.command _ (.ret _ _)) => true
  | _ => false

/-- `divergent_block`: checks only whether the last statement of the block is
a `Break`, `Continue`, `Abort` or `Return` command. -/
def divergent_block (block : Block) : Bool :=
  match block.getLast? with
  | some (.command _ (.breakC _)) => true
  | some (.command _ (.continueC _)) => true
  | some (.command _ (.abort _)) => true
  | some (.command _ (.ret _ _)) => true
  | _ => false

/-- `divergent` on a statement. -/
def divergent (stmt : Statement) : Bool :=
  match stmt with
  | .ifElse _ _ if_block else_block => divergent_block if_block && divergent_block else_block
  | .whileS _ _ _ _ block => divergent_while_block block
  | .loopS _ _ has_break _ => !has_break
  | .command _ (.breakC _) => true
  | .command _ (.continueC _) => true
  | .command _ (.abort _) => true
  | .command _ (.ret _ _) => true
  | _ => false

/-! ## Diagnostics -/

/-- The diagnostic label messages the modelled fragment can emit (the source
attaches these strings to source locations). -/
inductive DiagMsg where
  | deadCode
  | invalidTrailingSemi
  | unreachableTrailing
  | trailingSemiInfo
  | loopBreakUnused
deriving DecidableEq

/-- A diagnostic: its `UnusedItem` category together with its labels, each a
location/message pair, in the order the source lists them. -/
inductive Diag where
  | deadCode (label : Nat × DiagMsg)
  | trailingSemi (l1 l2 l3 : Nat × DiagMsg)
  | loopBreakValue (label : Nat × DiagMsg)
deriving DecidableEq

/-! ## The per-function `Context` -/

structure FunctionSignature where
  return_type : HType
deriving DecidableEq

/-- The lowering `Context`.  Maps are association lists (the source's
`UniqueMap` additions panic on duplicates; adding here conses, and lookups
take the first hit).  `env` is modelled only by its accumulated diagnostics. -/
structure Context where
  structs : List (Symbol × List (Symbol × List (Symbol × Nat)))
  function_locals : List (Symbol × SingleType)
  signature : Option FunctionSignature
  tmp_counter : Nat
  named_block_binders : List (Symbol × List HLValue)
  named_block_types : List (Symbol × HType)
  diags : List Diag
  used_fields : List (Symbol × List Symbol)

def Context.add_diag (ctx : Context) (d : Diag) : Context :=
  { ctx with diags := ctx.diags ++ [d] }

/-- `counter_next`: increments the temp counter, returning the new value. -/
def Context.counter_next (ctx : Context) : Context × Nat :=
  ({ ctx with tmp_counter := ctx.tmp_counter + 1 }, ctx.tmp_counter + 1)

/-- `new_temp_name`: `"%" "#" k` with `k` from `counter_next`. -/
def new_temp_name (ctx : Context) : Context × Symbol :=
  let (ctx, k) := ctx.counter_next
  (ctx, '%' :: '#' :: decChars k)

/-- `Context::new_temp` registers a fresh temporary in the local map.  The
source's duplicate-insertion panic cannot fire (temp names are fresh). -/
def Context.new_temp (ctx : Context) (_loc : Nat) (t : SingleType) : Context × Symbol :=
  let (ctx, new_var) := new_temp_name ctx
  ({ ctx with function_locals := (new_var, t) :: ctx.function_locals }, new_var)

/-- `Context::bind_local` (the source ICEs on duplicate symbols; not modelled). -/
def Context.bind_local (ctx : Context) (v : NVar) (t : SingleType) : Context :=
  { ctx with function_locals := (translate_var v, t) :: ctx.function_locals }

/-- `record_named_block_binders` (the source ICEs on a reused block name). -/
def Context.record_named_block_binders (ctx : Context) (block_name : Symbol)
    (binders : List HLValue) : Context :=
  { ctx with named_block_binders := (block_name, binders) :: ctx.named_block_binders }

/-- `record_named_block_type` (the source ICEs on a reused block name). -/
def Context.record_named_block_type (ctx : Context) (block_name : Symbol)
    (ty : HType) : Context :=
  { ctx with named_block_types := (block_name, ty) :: ctx.named_block_types }

/-- `lookup_named_block_binders`; `none` is the source's "named block with no
binders" ICE. -/
def Context.lookup_named_block_binders (ctx : Context) (block_name : Symbol) :
    Option (List HLValue) :=
  ctx.named_block_binders.lookup block_name

def Context.lookup_named_block_type (ctx : Context) (block_name : Symbol) : Option HType :=
  ctx.named_block_types.lookup block_name

/-- `Context::fields`: declared-order field-index map of a struct.  The source
asserts `env.has_errors()` when absent. -/
def Context.fields (ctx : Context) (module : Symbol) (struct_name : Symbol) :
    Option (List (Symbol × Nat)) :=
  (ctx.structs.lookup module).bind (fun structs => structs.lookup struct_name)

/-- Record fields of a struct as used (`used_fields` entry extension). -/
def Context.add_used_fields (ctx : Context) (s : Symbol) (fs : List Symbol) : Context :=
  let cur := (ctx.used_fields.lookup s).getD []
  { ctx with used_fields := (s, cur ++ fs) :: ctx.used_fields }

/-! ## T-AST fragment -/

inductive TLValue where
  | ignore
  | var (v : NVar) (ty : SingleType)

mutual
inductive TExp where
  | mk (ty : HType) (loc : Nat) (e : TUExp)

inductive TUExp where
  | unit (trailing : Bool)
  | value (v : HValue)
  | move (from_user : Bool) (v : NVar)
  | copy (from_user : Bool) (v : NVar)
  | constant (name : Symbol)
  | moduleCall (module : Symbol) (name : Symbol) (parameter_types : List SingleType)
      (arguments : TExp)
  | builtinAssert (abort_on_false : Bool) (arguments : TExp)
  | ifElse (test conseq alt : TExp)
  | whileE (name : NVar) (test : TExp) (body : TExp)
  | loop (name : NVar) (has_break : Bool) (body : TExp)
  | block (seq : List TSeqItem)
  | ret (e : TExp)
  | abort (e : TExp)
  | give (name : NVar) (e : TExp)
  | continueE (name : NVar)
  | assign (lhs : List TLValue) (lvalue_ty : List (Option SingleType)) (rhs : TExp)
  | mutate (lhs rhs : TExp)
  | pack (module : Symbol) (strct : Symbol) (arg_types : List BaseType)
      (fields : List (Symbol × Nat × BaseType × TExp))
  | expList (items : List (TExp × SingleType))
  | annotate (e : TExp) (ty : HType)
  | borrowLocal (mut_ : Bool) (v : NVar)

inductive TSeqItem where
  | seq (e : TExp)
  | declare (binds : List TLValue)
  | bind (loc : Nat) (binds : List TLValue) (tys : List (Option SingleType)) (e : TExp)
end

def TExp.ty : TExp → HType
  | .mk t _ _ => t

def TExp.loc : TExp → Nat
  | .mk _ l _ => l

def TExp.e : TExp → TUExp
  | .mk _ _ e => e

/-! ## Small helpers of the lowering -/

def make_command (loc : Nat) (c : Command) : Statement :=
  .command loc c

def tbool : HType := .single (.base .bool)

def unit_exp (loc : Nat) : HExp :=
  .mk .unit loc (.unit .implicit)

def trailing_unit_exp (loc : Nat) : HExp :=
  .mk .unit loc (.unit .trailing)

def freeze_point (e : HExp) : HExp :=
  .mk (freeze_ty e.ty) e.loc (.freezeE e)

/-- `emit_unreachable`: `UnusedItem::DeadCode` at the given location. -/
def emit_unreachable (ctx : Context) (loc : Nat) : Context :=
  ctx.add_diag (.deadCode (loc, .deadCode))

/-- `emit_trailing_semicolon_error`: `UnusedItem::TrailingSemi` with its three
labels, in the source's order. -/
def emit_trailing_semicolon_error (ctx : Context) (terminal_loc semi_loc : Nat) : Context :=
  ctx.add_diag (.trailingSemi (semi_loc, .invalidTrailingSemi)
    (terminal_loc, .unreachableTrailing) (semi_loc, .trailingSemiInfo))

def is_statement (e : TExp) : Bool :=
  match e.e with
  | .ret _ | .abort _ | .give _ _ | .continueE _ | .assign _ _ _ | .mutate _ _ => true
  | _ => false

def is_unit_statement (e : TExp) : Bool :=
  match e.e with
  | .assign _ _ _ | .mutate _ _ => true
  | _ => false

/-- `trailing_unit`: the last sequence item is a `Unit { trailing: true }`. -/
def trailing_unit (seq : List TSeqItem) : Bool :=
  match seq.getLast? with
  | some (.seq e) =>
    match e.e with
    | .unit true => true
    | _ => false
  | _ => false

/-- `expected_types`: absent lvalue types become `Base(UnresolvedError)`. -/
def expected_types (tys : List (Option SingleType)) : HType :=
  HType.from_vec (tys.map (fun sopt => sopt.getD (.base .unresolvedError)))

/-- `make_temp`: one fresh temporary as an lvalue and as a
`Move { InferredLastUsage }` expression. -/
def make_temp (ctx : Context) (loc : Nat) (ty : SingleType) : Context × HLValue × HExp :=
  let (ctx, binder) := ctx.new_temp loc ty
  (ctx, .var binder ty, .mk (.single ty) loc (.move .inferredLastUsage binder))

/-- `make_binders`: no binders at `Unit`, one temp at a single type, one temp
per component at a tuple type. -/
def make_binders (ctx : Context) (loc : Nat) (ty : HType) : Context × List HLValue × HExp :=
  match ty with
  | .unit => (ctx, [], .mk .unit loc (.unit .implicit))
  | .single single_type =>
    let (ctx, binder, var_exp) := make_temp ctx loc single_type
    (ctx, [binder], var_exp)
  | .multiple types =>
    let (ctx, binders, vars) :=
      types.foldl
        (fun (acc : Context × List HLValue × List HExp) single_type =>
          let (ctx, bs, vs) := acc
          let (ctx, b, v) := make_temp ctx loc single_type
          (ctx, bs ++ [b], vs ++ [v]))
        (ctx, [], [])
    (ctx, binders, .mk (.multiple types) loc (.multiple vars))

/-- `make_ignore_and_pop`: values of unit type that are literal units or
values vanish; anything else is wrapped in an `IgnoreAndPop` command whose
`pop_num` is the arity of the type. -/
def make_ignore_and_pop (block : Block) (e : Option HExp) : Block :=
  match e with
  | none => block
  | some exp =>
    match exp.ty with
    | .unit =>
      match exp.e with
      | .unit _ => block
      | .value _ => block
      | _ => block ++ [.command exp.loc (.ignoreAndPop 0 exp)]
    | .single _ => block ++ [.command exp.loc (.ignoreAndPop 1 exp)]
    | .multiple tys => block ++ [.command exp.loc (.ignoreAndPop tys.length exp)]

/-! ## LValue translation (fragment: `Ignore` and `Var` only) -/

def declare_bind (ctx : Context) (b : TLValue) : Context :=
  match b with
  | .ignore => ctx
  | .var v ty => ctx.bind_local v ty

def declare_bind_list (ctx : Context) (binds : List TLValue) : Context :=
  binds.foldl declare_bind ctx

/-- `assign` on the fragment's lvalues (`Unpack`/`BorrowUnpack` are outside
the fragment, so the context and the after-block stay untouched). -/
def assign (ta : TLValue) (_rvalue_ty : SingleType) : HLValue × Block :=
  match ta with
  | .ignore => (.ignore, [])
  | .var v st => (.var (translate_var v) st, [])

def make_assignments_loop (rty : HType) (idx : Nat) :
    List TLValue → Option (List HLValue × Block)
  | [] => some ([], [])
  | a :: rest =>
    match rty.type_at_index idx with
    | none => none
    | some a_ty =>
      let (ls, af) := assign a a_ty
      (make_assignments_loop rty (idx + 1) rest).map (fun (lvs, afs) => (ls :: lvs, af ++ afs))

/-- `make_assignments`: the `Assign` command followed by the concatenated
after-blocks (`none` models the arity-mismatch panic of `type_at_index`). -/
def make_assignments (ctx : Context) (block : Block) (loc : Nat)
    (assigns : List TLValue) (rvalue : HExp) : Option (Context × Block) :=
  match make_assignments_loop rvalue.ty 0 assigns with
  | none => none
  | some (lvalues, after) =>
    some (ctx, block ++ [make_command loc (.assign lvalues rvalue)] ++ after)

/-! ## Pack preprocessing -/

/-- Build the `(decl_idx, field, exp_idx, base_ty, exp)` tuples of the
`E::Pack` arm; with no declared field map the declaration index falls back to
the enumeration index.  `none` models the `field_map.get(&f).unwrap()` panic. -/
def pack_texp_fields (decl_fields : Option (List (Symbol × Nat)))
    (fields : List (Symbol × Nat × BaseType × TExp)) :
    Option (List (Nat × Symbol × Nat × BaseType × TExp)) :=
  match decl_fields with
  | some field_map =>
    fields.mapM (fun (f, exp_idx, bt, tf) =>
      (field_map.lookup f).map (fun di => (di, f, exp_idx, bt, tf)))
  | none =>
    some (fields.enum.map (fun (ndx, f, exp_idx, bt, tf) => (ndx, f, exp_idx, bt, tf)))

def insert_by_key {α : Type} (key : α → Nat) (x : α) : List α → List α
  | [] => [x]
  | y :: ys => if key x < key y then x :: y :: ys else y :: insert_by_key key x ys

/-- Stable sort by a numeric key (the source's `sort_by`). -/
def sort_by_key {α : Type} (key : α → Nat) (l : List α) : List α :=
  l.foldl (fun acc x => insert_by_key key x acc) []

/-- The per-component closure of `freeze`'s `Sub` arm (inline in the source):
freeze the component when its flag is set. -/
def freeze_flagged (p : HExp × Bool) : HExp :=
  if p.2 then freeze_point p.1 else p.1

/-- The component-type projection of `freeze`'s `Sub` arm (the source panics
with "ICE list item has Multple type" on a non-single component). -/
def single_ty_of (e : HExp) : Option SingleType :=
  match e.ty with
  | .single s => some s
  | _ => none

/-! ## The mutually recursive lowering

Every function consumes one unit of fuel per call; `none` is fuel exhaustion
or a source `panic!` (ICE).  The binop machinery (`process_binops`) and the
non-assert builtins are outside the fragment, so `value`'s `is_binop` fast
path and the generic `E::Builtin` arm are absent. -/

mutual

/-- `value`: lower an expression in value position. -/
def value : Nat → Context → Block → Option HType → TExp →
    Option (Context × Block × Option HExp)
  | 0, _, _, _, _ => none
  | fuel + 1, ctx, block, expected_type, e =>
    if is_statement e then
      let (ctx, result) :=
        if is_unit_statement e then (ctx, some (unit_exp e.loc))
        else (emit_unreachable ctx e.loc, none)
      match statement fuel ctx block e with
      | none => none
      | some (ctx, block) => some (ctx, block, result)
    else
      let eloc := e.loc
      let out_type := e.ty
      let pre : Option (Context × Block × Option HExp) :=
        match e.e with
        | .builtinAssert false arguments =>
          match arguments.e with
          | .expList [(econd, _), (ecode, _)] =>
            match value fuel ctx block (some tbool) econd with
            | none => none
            | some (ctx, block, cond_value) =>
              match value fuel ctx block none ecode with
              | none => none
              | some (ctx, block, code_value) =>
                match cond_value, code_value with
                | some cond, some code =>
                  some (ctx,
                    block ++ [.ifElse eloc cond [] [make_command eloc (.abort code)]],
                    some (unit_exp eloc))
                | _, _ => some (ctx, block, some (unit_exp eloc))
          | _ => none
        | .builtinAssert true arguments =>
          match arguments.e with
          | .expList [(econd, _), (ecode, _)] =>
            match value fuel ctx block (some tbool) econd with
            | none => none
            | some (ctx, block, cond_value) =>
              match value fuel ctx [] none ecode with
              | none => none
              | some (ctx, else_block, code_value) =>
                match cond_value, code_value with
                | some cond, some code =>
                  some (ctx,
                    block ++
                      [.ifElse eloc cond [] (else_block ++ [make_command eloc (.abort code)])],
                    some (unit_exp eloc))
                | _, _ => some (ctx, block, some (unit_exp eloc))
          | _ => none
        | .ifElse test conseq alt =>
          match value fuel ctx block (some tbool) test with
          | none => none
          | some (ctx, block, cond) =>
            match tail fuel ctx [] (some out_type) conseq with
            | none => none
            | some (ctx, if_block, conseq_exp) =>
              match tail fuel ctx [] (some out_type) alt with
              | none => none
              | some (ctx, else_block, alt_exp) =>
                let (ctx, binders, bound_exp) := make_binders ctx eloc out_type
                match bind_value_in_block fuel ctx binders (some out_type) if_block conseq_exp with
                | none => none
                | some (ctx, if_block, if_binds) =>
                  match bind_value_in_block fuel ctx binders (some out_type) else_block alt_exp with
                  | none => none
                  | some (ctx, else_block, else_binds) =>
                    match cond with
                    | some cond =>
                      some (ctx, block ++ [.ifElse eloc cond if_block else_block],
                        if if_binds || else_binds then some bound_exp else none)
                    | none => some (ctx, block, none)
        | .whileE _ _ _ =>
          match statement fuel ctx block e with
          | none => none
          | some (ctx, block) => some (ctx, block, some (unit_exp eloc))
        | .loop name true body =>
          let name := translate_var name
          let (ctx, binders, bound_exp) := make_binders ctx eloc out_type
          let ctx := ctx.record_named_block_binders name binders
          let ctx := ctx.record_named_block_type name out_type
          match process_loop_body fuel ctx body with
          | none => none
          | some (ctx, loop_block) =>
            some (ctx, block ++ [.loopS eloc name true loop_block], some bound_exp)
        | .loop _ false _ =>
          let ctx := emit_unreachable ctx eloc
          match statement fuel ctx block e with
          | none => none
          | some (ctx, block) => some (ctx, block, none)
        | .block seq => value_block fuel ctx block (some out_type) seq
        | .moduleCall module name parameter_types arguments =>
          let expected_t := HType.from_vec parameter_types
          match value_list fuel ctx block (some expected_t) arguments with
          | none => none
          | some (ctx, block, maybe_arguments) =>
            match maybe_arguments with
            | some args =>
              some (ctx, block, some (.mk out_type eloc (.moduleCall module name args)))
            | none => some (ctx, block, none)
        | .pack module_ident struct_name arg_types fields =>
          let ctx := ctx.add_used_fields struct_name (fields.map (fun f => f.1))
          let base_types := arg_types
          let decl_fields := ctx.fields module_ident struct_name
          match pack_texp_fields decl_fields fields with
          | none => none
          | some texp_fields =>
            let texp_fields := sort_by_key (fun (_, _, eidx, _, _) => eidx) texp_fields
            let reorder_fields :=
              texp_fields.any (fun (decl_idx, _, exp_idx, _, _) => decl_idx ≠ exp_idx)
            if !reorder_fields then
              let fields_tys := texp_fields.map (fun (_, f, _, bt, _) => (f, bt))
              let field_exps := texp_fields.map
                (fun (_, _, _, bt, te) => (te, some (HType.single (.base bt))))
              match value_evaluation_order fuel ctx block field_exps with
              | none => none
              | some (ctx, block, field_exps) =>
                let fields' := (field_exps.zip fields_tys).map (fun (e, f, bt) => (f, bt, e))
                some (ctx, block, some (.mk out_type eloc (.pack struct_name base_types fields')))
            else
              let num_fields := (decl_fields.map (fun m => m.length)).getD 0
              match pack_reorder_fields fuel ctx block texp_fields
                  (List.replicate num_fields none) with
              | none => none
              | some (ctx, block, fields_out) =>
                some (ctx, block,
                  some (.mk out_type eloc (.pack struct_name base_types (fields_out.filterMap id))))
        | .expList items =>
          match exp_list_values fuel ctx block items with
          | none => none
          | some (ctx, block, values) =>
            some (ctx, block, some (.mk out_type eloc (.multiple values)))
        | .borrowLocal mut_ v =>
          some (ctx, block, some (.mk out_type eloc (.borrowLocal mut_ (translate_var v))))
        | .annotate base rhs_ty => value fuel ctx block (some rhs_ty) base
        | .unit trailing =>
          some (ctx, block,
            some (.mk out_type eloc (.unit (if trailing then .trailing else .fromUser))))
        | .value v => some (ctx, block, some (.mk out_type eloc (.value v)))
        | .constant c => some (ctx, block, some (.mk out_type eloc (.constant c)))
        | .move from_user v =>
          let annot := if from_user then MoveOpAnnot.fromUser else MoveOpAnnot.inferredNoCopy
          some (ctx, block, some (.mk out_type eloc (.move annot (translate_var v))))
        | .copy from_user v =>
          some (ctx, block, some (.mk out_type eloc (.copy from_user (translate_var v))))
        | .ret _ | .abort _ | .give _ _ | .continueE _ | .assign _ _ _ | .mutate _ _ => none
      match pre with
      | none => none
      | some (ctx, block, preresult) => maybe_freeze fuel ctx block expected_type preresult

/-- `tail`: lower an expression in tail position. -/
def tail : Nat → Context → Block → Option HType → TExp →
    Option (Context × Block × Option HExp)
  | 0, _, _, _, _ => none
  | fuel + 1, ctx, block, expected_type, e =>
    if is_statement e then
      let result := if is_unit_statement e then some (unit_exp e.loc) else none
      match statement fuel ctx block e with
      | none => none
      | some (ctx, block) => some (ctx, block, result)
    else
      let eloc := e.loc
      let out_type := e.ty
      match e.e with
      | .ifElse test conseq alt =>
        match value fuel ctx block (some tbool) test with
        | none => none
        | some (ctx, block, cond) =>
          match tail fuel ctx [] (some out_type) conseq with
          | none => none
          | some (ctx, if_block, conseq_exp) =>
            match tail fuel ctx [] (some out_type) alt with
            | none => none
            | some (ctx, else_block, alt_exp) =>
              let (ctx, binders, bound_exp) := make_binders ctx eloc out_type
              match bind_value_in_block fuel ctx binders (some out_type) if_block conseq_exp with
              | none => none
              | some (ctx, if_block, if_binds) =>
                match bind_value_in_block fuel ctx binders (some out_type) else_block alt_exp with
                | none => none
                | some (ctx, else_block, else_binds) =>
                  match cond with
                  | some cond =>
                    some (ctx, block ++ [.ifElse eloc cond if_block else_block],
                      if if_binds || else_binds then some bound_exp else none)
                  | none => some (ctx, block, none)
      | .whileE _ _ _ =>
        match statement fuel ctx block e with
        | none => none
        | some (ctx, block) => some (ctx, block, some (trailing_unit_exp eloc))
      | .loop name true body =>
        let name := translate_var name
        let (ctx, binders, bound_exp) := make_binders ctx eloc out_type
        let result := some (if binders.isEmpty then trailing_unit_exp eloc else bound_exp)
        let ctx := ctx.record_named_block_binders name binders
        let ctx := ctx.record_named_block_type name out_type
        match process_loop_body fuel ctx body with
        | none => none
        | some (ctx, loop_block) =>
          some (ctx, block ++ [.loopS eloc name true loop_block], result)
      | .loop _ false _ =>
        match statement fuel ctx block e with
        | none => none
        | some (ctx, block) => some (ctx, block, none)
      | .block seq => tail_block fuel ctx block (some out_type) seq
      | .ret _ | .abort _ | .give _ _ | .continueE _ | .assign _ _ _ | .mutate _ _ => none
      | _ => value fuel ctx block expected_type e

/-- `tail_block`: lower a sequence whose last item is in tail position,
applying the trailing-semicolon policy. -/
def tail_block : Nat → Context → Block → Option HType → List TSeqItem →
    Option (Context × Block × Option HExp)
  | 0, _, _, _, _ => none
  | fuel + 1, ctx, block, expected_type, seq =>
    let has_trailing_unit := trailing_unit seq
    let last_exp := seq.getLast?
    match statement_block fuel ctx block seq.dropLast false with
    | none => none
    | some (ctx, block) =>
      match last_exp with
      | none => some (ctx, block, none)
      | some (.seq last) =>
        if has_trailing_unit then
          match block.getLast? with
          | some stmt =>
            if divergent stmt then
              some (emit_trailing_semicolon_error ctx stmt.loc last.loc, block, none)
            else tail fuel ctx block expected_type last
          | none => tail fuel ctx block expected_type last
        else tail fuel ctx block expected_type last
      | some _ => none

/-- `value_block`: lower a sequence whose last item is in value position. -/
def value_block : Nat → Context → Block → Option HType → List TSeqItem →
    Option (Context × Block × Option HExp)
  | 0, _, _, _, _ => none
  | fuel + 1, ctx, block, expected_type, seq =>
    let last_exp := seq.getLast?
    match statement_block fuel ctx block seq.dropLast false with
    | none => none
    | some (ctx, block) =>
      match last_exp with
      | none => some (ctx, block, none)
      | some (.seq last) => value fuel ctx block expected_type last
      | some _ => none

/-- `value_list`: lower an argument list (an `ExpList`, a unit, or a single
expression). -/
def value_list : Nat → Context → Block → Option HType → TExp →
    Option (Context × Block × Option (List HExp))
  | 0, _, _, _, _ => none
  | fuel + 1, ctx, block, ty, e =>
    match e.e with
    | .expList items =>
      if items.isEmpty then none
      else
        let expected_tys : List (Option HType) :=
          match ty with
          | some (.multiple ts) => ts.map (fun t => some (HType.single t))
          | _ => items.map (fun _ => none)
        let item_exprs := (items.zip expected_tys).map (fun ((te, _), expected_ty) => (te, expected_ty))
        match value_evaluation_order fuel ctx block item_exprs with
        | none => none
        | some (ctx, block, exprs) => some (ctx, block, some exprs)
    | .unit _ => some (ctx, block, some [])
    | _ =>
      match value fuel ctx block ty e with
      | none => none
      | some (ctx, block, exp) => some (ctx, block, exp.map (fun e => [e]))

/-- `statement`: lower an expression in statement position. -/
def statement : Nat → Context → Block → TExp → Option (Context × Block)
  | 0, _, _, _ => none
  | fuel + 1, ctx, block, e =>
    let eloc := e.loc
    let ty := e.ty
    match e.e with
    | .ifElse test conseq alt =>
      match value fuel ctx block (some tbool) test with
      | none => none
      | some (ctx, block, cond) =>
        match statement fuel ctx [] conseq with
        | none => none
        | some (ctx, if_block) =>
          match statement fuel ctx [] alt with
          | none => none
          | some (ctx, else_block) =>
            match cond with
            | some cond => some (ctx, block ++ [.ifElse eloc cond if_block else_block])
            | none => some (ctx, block)
    | .whileE name test body =>
      let name := translate_var name
      let ctx := ctx.record_named_block_binders name []
      let ctx := ctx.record_named_block_type name .unit
      match value fuel ctx [] (some tbool) test with
      | none => none
      | some (ctx, cond_block, cond_exp) =>
        match statement fuel ctx [] body with
        | none => none
        | some (ctx, body_block) =>
          match cond_exp with
          | some cond_exp =>
            some (ctx, block ++ [.whileS eloc name cond_block cond_exp body_block])
          | none => some (ctx, block ++ cond_block)
    | .loop name has_break body =>
      let name := translate_var name
      let out_type := ty
      let (ctx, binders, bound_exp) := make_binders ctx eloc out_type
      let unused_binders := !binders.isEmpty && has_break
      let ctx := ctx.record_named_block_binders name binders
      let ctx := ctx.record_named_block_type name out_type
      match process_loop_body fuel ctx body with
      | none => none
      | some (ctx, loop_block) =>
        let block := block ++ [.loopS eloc name has_break loop_block]
        if unused_binders then
          let ctx := ctx.add_diag (.loopBreakValue (eloc, .loopBreakUnused))
          some (ctx, make_ignore_and_pop block (some bound_exp))
        else some (ctx, block)
    | .block seq => statement_block fuel ctx block seq true
    | .ret rhs =>
      let expected_type := ctx.signature.map (fun s => s.return_type)
      match value fuel ctx block expected_type rhs with
      | none => none
      | some (ctx, block, rhs_v) =>
        match rhs_v with
        | some exp => some (ctx, block ++ [make_command eloc (.ret true exp)])
        | none => some (ctx, block)
    | .abort rhs =>
      match value fuel ctx block none rhs with
      | none => none
      | some (ctx, block, rhs_v) =>
        match rhs_v with
        | some rhs_exp => some (ctx, block ++ [make_command eloc (.abort rhs_exp)])
        | none => some (ctx, block)
    | .give name rhs =>
      let out_name := translate_var name
      let bind_ty := ctx.lookup_named_block_type out_name
      match value fuel ctx block bind_ty rhs with
      | none => none
      | some (ctx, block, rhs_v) =>
        match ctx.lookup_named_block_binders out_name with
        | none => none
        | some binders =>
          let step : Option (Context × Block) :=
            if binders.isEmpty then some (ctx, make_ignore_and_pop block rhs_v)
            else
              match bind_value_in_block fuel ctx binders bind_ty block rhs_v with
              | none => none
              | some (ctx, block, _) => some (ctx, block)
          match step with
          | none => none
          | some (ctx, block) => some (ctx, block ++ [make_command eloc (.breakC out_name)])
    | .continueE name =>
      some (ctx, block ++ [make_command eloc (.continueC (translate_var name))])
    | .assign assigns lvalue_ty rhs =>
      let expected_type := expected_types lvalue_ty
      match value fuel ctx block (some expected_type) rhs with
      | none => none
      | some (ctx, block, rhs_v) =>
        match rhs_v with
        | some exp => make_assignments ctx block eloc assigns exp
        | none => some (ctx, block)
    | .mutate lhs_in rhs_in =>
      match value fuel ctx block none rhs_in with
      | none => none
      | some (ctx, block, rhs) =>
        match value fuel ctx block none lhs_in with
        | none => none
        | some (ctx, block, lhs) =>
          match lhs, rhs with
          | some lhs, some rhs => some (ctx, block ++ [make_command eloc (.mutate lhs rhs)])
          | _, _ => some (ctx, block)
    | .moduleCall _ _ _ _ => value_statement fuel ctx block e
    | .builtinAssert _ _ => value_statement fuel ctx block e
    | .pack _ _ _ _ | .expList _ | .annotate _ _ | .borrowLocal _ _ | .constant _
    | .move _ _ | .copy _ _ => value_statement fuel ctx block e
    | .value _ | .unit _ => some (ctx, block)

/-- `statement_block`: lower a sequence in statement position.
`has_trailing_unit` only applies in statement position (`stmt_pos`). -/
def statement_block : Nat → Context → Block → List TSeqItem → Bool →
    Option (Context × Block)
  | 0, _, _, _, _ => none
  | fuel + 1, ctx, block, seq, stmt_pos =>
    sb_items fuel ctx block seq (stmt_pos && trailing_unit seq)

/-- The item loop of `statement_block`; the trailing-semicolon special case
fires only on a `Seq` item in the last position. -/
def sb_items : Nat → Context → Block → List TSeqItem → Bool → Option (Context × Block)
  | 0, _, _, _, _ => none
  | _fuel + 1, ctx, block, [], _ => some (ctx, block)
  | fuel + 1, ctx, block, item :: rest, has_trailing_unit =>
    let step : Option (Context × Block) :=
      match item with
      | .seq last =>
        if rest.isEmpty && has_trailing_unit then
          match block.getLast? with
          | some stmt =>
            if divergent stmt then
              some (emit_trailing_semicolon_error ctx stmt.loc last.loc, block)
            else statement fuel ctx block last
          | none => statement fuel ctx block last
        else statement fuel ctx block last
      | .declare bindings => some (declare_bind_list ctx bindings, block)
      | .bind sloc bindings tys expr =>
        let expected_tys := expected_types tys
        match value fuel ctx block (some expected_tys) expr with
        | none => none
        | some (ctx, block, rhs_exp) =>
          match rhs_exp with
          | some rhs_exp =>
            let ctx := declare_bind_list ctx bindings
            make_assignments ctx block sloc bindings rhs_exp
          | none => some (ctx, block)
    match step with
    | none => none
    | some (ctx, block) => sb_items fuel ctx block rest has_trailing_unit

/-- `value_statement`: lower as a value and then ignore-and-pop the result. -/
def value_statement : Nat → Context → Block → TExp → Option (Context × Block)
  | 0, _, _, _ => none
  | fuel + 1, ctx, block, e =>
    match value fuel ctx block none e with
    | none => none
    | some (ctx, block, exp) => some (ctx, make_ignore_and_pop block exp)

/-- `process_loop_body`: lower a loop body in statement position into a fresh
block. -/
def process_loop_body : Nat → Context → TExp → Option (Context × Block)
  | 0, _, _ => none
  | fuel + 1, ctx, body => statement fuel ctx [] body

/-- `value_evaluation_order`: lower a list of `(exp, expected type)` pairs
preserving left-to-right evaluation (see `veo_items`). -/
def value_evaluation_order : Nat → Context → Block → List (TExp × Option HType) →
    Option (Context × Block × List HExp)
  | 0, _, _, _ => none
  | fuel + 1, ctx, block, input_exps =>
    match veo_items fuel ctx input_exps.reverse false [] [] with
    | none => none
    | some (ctx, statements, values) =>
      some (ctx, block ++ statements.reverse.flatten, values.reverse)

/-- The reversed-list loop of `value_evaluation_order`, carrying the
`needs_binding` flag and the accumulated per-expression blocks and values (in
processing order, i.e. reversed source order). -/
def veo_items : Nat → Context → List (TExp × Option HType) → Bool → List Block →
    List HExp → Option (Context × List Block × List HExp)
  | 0, _, _, _, _, _ => none
  | _fuel + 1, ctx, [], _, statements, values => some (ctx, statements, values)
  | fuel + 1, ctx, (exp, expected_type) :: rest, needs_binding, statements, values =>
    let te_loc := exp.loc
    match value fuel ctx [] expected_type exp with
    | none => none
    | some (ctx, new_stmts, exp_v) =>
      let bound : Option (Context × Block × Option HExp) :=
        if needs_binding then maybe_bind_exp fuel ctx new_stmts exp_v
        else some (ctx, new_stmts, exp_v)
      match bound with
      | none => none
      | some (ctx, new_stmts, e) =>
        let values := values ++
          [match e with
           | some final_exp => final_exp
           | none => unit_exp te_loc]
        let adds_to_result := !new_stmts.isEmpty
        veo_items fuel ctx rest (needs_binding || adds_to_result)
          (statements ++ [new_stmts]) values

/-- The item loop of `value`'s `E::ExpList` arm (`none` models the
`new_value.unwrap()` panic). -/
def exp_list_values : Nat → Context → Block → List (TExp × SingleType) →
    Option (Context × Block × List HExp)
  | 0, _, _, _ => none
  | _fuel + 1, ctx, block, [] => some (ctx, block, [])
  | fuel + 1, ctx, block, (entry, ts) :: rest =>
    match value fuel ctx block (some (HType.single ts)) entry with
    | none => none
    | some (ctx, block, new_value) =>
      match new_value with
      | none => none
      | some v =>
        match exp_list_values fuel ctx block rest with
        | none => none
        | some (ctx, block, vs) => some (ctx, block, v :: vs)

/-- The reorder loop of `value`'s `E::Pack` arm: lower each field expression
in source order, immediately bind it (`bind_exp`), and place the move-out of
the temporary at the field's declaration index. -/
def pack_reorder_fields : Nat → Context → Block →
    List (Nat × Symbol × Nat × BaseType × TExp) →
    List (Option (Symbol × BaseType × HExp)) →
    Option (Context × Block × List (Option (Symbol × BaseType × HExp)))
  | 0, _, _, _, _ => none
  | _fuel + 1, ctx, block, [], fields => some (ctx, block, fields)
  | fuel + 1, ctx, block, (decl_idx, field, _exp_idx, bt, tf) :: rest, fields =>
    if decl_idx ≥ fields.length then some (ctx, block, fields)
    else
      let t := HType.single (.base bt)
      match value fuel ctx block (some t) tf with
      | none => none
      | some (ctx, block, field_expr) =>
        match fields.get? decl_idx with
        | some none =>
          match field_expr with
          | none => none
          | some fe =>
            match bind_exp fuel ctx block fe with
            | none => none
            | some (ctx, block, move_tmp) =>
              pack_reorder_fields fuel ctx block rest
                (fields.set decl_idx (some (field, bt, move_tmp)))
        | _ => none

/-- `maybe_bind_exp`: bind a present value to fresh binders; with no binders
(unit type) the value is ignore-and-popped and the result is absent. -/
def maybe_bind_exp : Nat → Context → Block → Option HExp →
    Option (Context × Block × Option HExp)
  | 0, _, _, _ => none
  | fuel + 1, ctx, stmts, e =>
    match e with
    | some e =>
      let loc := e.loc
      let ty := e.ty
      let (ctx, binders, var_exp) := make_binders ctx loc ty
      if binders.isEmpty then some (ctx, make_ignore_and_pop stmts (some e), none)
      else
        match bind_value_in_block fuel ctx binders (some ty) stmts (some e) with
        | none => none
        | some (ctx, stmts, _) => some (ctx, stmts, some var_exp)
    | none => some (ctx, stmts, none)

/-- `bind_exp`: always bind (fresh binders, an appended `Assign`, and the
move-out expression as the result). -/
def bind_exp : Nat → Context → Block → HExp → Option (Context × Block × HExp)
  | 0, _, _, _ => none
  | fuel + 1, ctx, stmts, e =>
    let loc := e.loc
    let ty := e.ty
    let (ctx, binders, var_exp) := make_binders ctx loc ty
    match bind_value_in_block fuel ctx binders (some ty) stmts (some e) with
    | none => none
    | some (ctx, stmts, _) => some (ctx, stmts, var_exp)

/-- `bind_value_in_block`: append an assignment of a present value (frozen to
the binder type) to the binders; the flag reports whether that happened.
`none` models the non-var-lvalue ICE. -/
def bind_value_in_block : Nat → Context → List HLValue → Option HType → Block →
    Option HExp → Option (Context × Block × Bool)
  | 0, _, _, _, _, _ => none
  | fuel + 1, ctx, binders, binders_type, stmts, value_exp =>
    if binders.any (fun lv =>
        match lv with
        | .var _ _ => false
        | _ => true) then none
    else
      match maybe_freeze fuel ctx stmts binders_type value_exp with
      | none => none
      | some (ctx, stmts, rhs_exp) =>
        match rhs_exp with
        | some real_exp =>
          some (ctx, stmts ++ [.command real_exp.loc (.assign binders real_exp)], true)
        | none => some (ctx, stmts, false)

/-- `maybe_freeze`: freeze a present, reachable value toward the expected
type, appending the freeze's prerequisite statements. -/
def maybe_freeze : Nat → Context → Block → Option HType → Option HExp →
    Option (Context × Block × Option HExp)
  | 0, _, _, _, _ => none
  | fuel + 1, ctx, block, expected_type_opt, e =>
    match e with
    | some exp =>
      if exp.is_unreachable then some (ctx, block, some exp)
      else
        match expected_type_opt with
        | some expected_type =>
          match freeze fuel ctx expected_type exp with
          | none => none
          | some (ctx, stmts, frozen_exp) => some (ctx, block ++ stmts, some frozen_exp)
        | none => some (ctx, block, some exp)
    | none => some (ctx, block, none)

/-- `freeze`: apply `needs_freeze`; a `Sub` freeze binds the aggregate and
freezes the flagged components. -/
def freeze : Nat → Context → HType → HExp → Option (Context × Block × HExp)
  | 0, _, _, _ => none
  | fuel + 1, ctx, expected_type, e =>
    match needs_freeze e.ty expected_type with
    | .notNeeded => some (ctx, [], e)
    | .point => some (ctx, [], freeze_point e)
    | .sub points =>
      match bind_exp fuel ctx [] e with
      | none => none
      | some (ctx, bind_stmts, bound_rhs) =>
        match bound_rhs with
        | .mk _ eloc (.multiple exps) =>
          let exps := (exps.zip points).map freeze_flagged
          match exps.mapM single_ty_of with
          | none => none
          | some tys => some (ctx, bind_stmts, .mk (.multiple tys) eloc (.multiple exps))
        | _ => none

end

/-! ## Specification-side definition for claim C1 (refinement target)

`value_evaluation_order_spec` is written from the (amended) claim's words, to
be compared with the source-translated `value_evaluation_order`: iterate the
pairs in reverse; lower each expression in value position into its own fresh
block; pass the result through `maybe_bind_exp` if and only if the lowering
of some later-in-source expression emitted at least one statement (the
`needs_binding` flag, set from the freshly emitted statements of each
sub-lowering); replace an absent result by an implicit unit at the
expression's location; concatenate the per-expression blocks in original
source order and return the lowered expressions in original source order. -/

def veo_spec_items : Nat → Context → List (TExp × Option HType) → Bool →
    Option (Context × List (Block × HExp))
  | 0, _, _, _ => none
  | _fuel + 1, ctx, [], _ => some (ctx, [])
  | fuel + 1, ctx, (exp, expected_type) :: rest, needs_binding =>
    match value fuel ctx [] expected_type exp with
    | none => none
    | some (ctx, stmts, res) =>
      match (if needs_binding then maybe_bind_exp fuel ctx stmts res
             else some (ctx, stmts, res)) with
      | none => none
      | some (ctx2, stmts2, res2) =>
        match veo_spec_items fuel ctx2 rest (needs_binding || !stmts.isEmpty) with
        | none => none
        | some (ctx3, pairs) =>
          some (ctx3, (stmts2, res2.getD (unit_exp exp.loc)) :: pairs)

def value_evaluation_order_spec (fuel : Nat) (ctx : Context) (block : Block)
    (input_exps : List (TExp × Option HType)) : Option (Context × Block × List HExp) :=
  match fuel with
  | 0 => none
  | fuel + 1 =>
    match veo_spec_items fuel ctx input_exps.reverse false with
    | none => none
    | some (ctx, pairs) =>
      some (ctx, block ++ (pairs.reverse.map (fun p => p.1)).flatten,
        pairs.reverse.map (fun p => p.2))

/-! ## Concrete inputs for the C1 counterexample -/

def c1first : TExp := .mk .unit 1 (.unit false)

def c1cond : TExp := .mk tbool 4 (.value (.bool true))

def c1code : TExp := .mk (.single (.base .u64)) 5 (.value (.u64 0))

def c1later : TExp :=
  .mk .unit 2 (.builtinAssert false
    (.mk (.multiple [.base .bool, .base .u64]) 3
      (.expList [(c1cond, .base .bool), (c1code, .base .u64)])))

def c1stmt : Statement :=
  .ifElse 2 (.mk tbool 4 (.value (.bool true))) []
    [.command 2 (.abort (.mk (.single (.base .u64)) 5 (.value (.u64 0))))]

/-! ## Shared infrastructure for the theorems -/

/-- `b'` extends `b` by appending statements at the end. -/
def BlockLe (b b' : Block) : Prop := ∃ s, b' = b ++ s

/-- A sample empty context used by concrete evaluations. -/
def ctx0 : Context :=
  { structs := [], function_locals := [], signature := none, tmp_counter := 0,
    named_block_binders := [], named_block_types := [], diags := [], used_fields := [] }

/-- Witness input for C6: `return ()`. -/
def c6e : TExp := .mk .unit 7 (.ret (.mk .unit 8 (.unit false)))

/-- Witness inputs for C7: the sequence `return (); ;`. -/
def c7ret : TExp := .mk .unit 20 (.ret (.mk .unit 21 (.unit false)))

def c7cmd : Statement := .command 20 (.ret true (.mk .unit 21 (.unit .fromUser)))

/-- Witness inputs for C10: `while (return ()) { () }`. -/
def c10test : TExp := .mk tbool 10 (.ret (.mk .unit 11 (.unit false)))

def c10body : TExp := .mk .unit 12 (.unit false)

def c10ctxR : Context :=
  (ctx0.record_named_block_binders (translate_var ⟨['l'], 0, 0⟩) []).record_named_block_type
    (translate_var ⟨['l'], 0, 0⟩) .unit

/-- The symbol of the `k`-th temporary: `"%" "#" k`. -/
def tempSym (n : Nat) : Symbol := '%' :: '#' :: decChars n

/-- Per-entry segment predicate of claim C4, following the claim's words: the
segment (first component) consists of the statements freshly emitted by
lowering the entry's field expression in value position, immediately followed
by a single `Assign` binding the result (third component) to the fresh
temporary (second component); and the final field list holds, at the entry's
declaration index, the field name, its base type and a move out of that same
temporary. -/
def PackSegSpec (final_fields : List (Option (Symbol × BaseType × HExp)))
    (e : Nat × Symbol × Nat × BaseType × TExp) (s : Block × Nat × HExp) : Prop :=
  (∃ fl cv bv cw st,
      value fl cv bv (some (.single (.base e.2.2.2.1))) e.2.2.2.2 =
        some (cw, bv ++ st, some s.2.2) ∧
      s.1 = st ++
        [.command s.2.2.loc (.assign [.var (tempSym s.2.1) (.base e.2.2.2.1)] s.2.2)]) ∧
  final_fields.get? e.1 = some (some (e.2.1, e.2.2.2.1,
    .mk (.single (.base e.2.2.2.1)) s.2.2.loc (.move .inferredLastUsage (tempSym s.2.1))))

def c4m : Symbol := ['M']

def c4s : Symbol := ['S']

def c4x : Symbol := ['x']

def c4y : Symbol := ['y']

def c4evy : HExp := .mk (.single (.base .u64)) 21 (.value (.u64 7))

def c4evx : HExp := .mk (.single (.base .u64)) 22 (.value (.u64 9))

def c4ey : TExp := .mk (.single (.base .u64)) 21 (.value (.u64 7))

def c4ex : TExp := .mk (.single (.base .u64)) 22 (.value (.u64 9))

def c4ctx : Context := { ctx0 with structs := [(c4m, [(c4s, [(c4x, 0), (c4y, 1)])])] }

def c4stf : List (Nat × Symbol × Nat × BaseType × TExp) :=
  [(1, c4y, 0, .u64, c4ey), (0, c4x, 1, .u64, c4ex)]

def c4cmd1 : Statement := .command 21 (.assign [.var (tempSym 1) (.base .u64)] c4evy)

def c4cmd2 : Statement := .command 22 (.assign [.var (tempSym 2) (.base .u64)] c4evx)

def c4mvy : HExp := .mk (.single (.base .u64)) 21 (.move .inferredLastUsage (tempSym 1))

def c4mvx : HExp := .mk (.single (.base .u64)) 22 (.move .inferredLastUsage (tempSym 2))

def c4ctxF : Context :=
  { c4ctx with
      tmp_counter := 2
      function_locals := [(tempSym 2, SingleType.base BaseType.u64),
        (tempSym 1, SingleType.base BaseType.u64)] }

def c4fieldsF : List (Option (Symbol × BaseType × HExp)) :=
  [some (c4x, .u64, c4mvx), some (c4y, .u64, c4mvy)]

theorem BlockLe.rfl {b : Block} : BlockLe b b := ⟨[], by simp⟩

theorem BlockLe.trans {a b c : Block} (h1 : BlockLe a b) (h2 : BlockLe b c) : BlockLe a c := by
  obtain ⟨s1, rfl⟩ := h1
  obtain ⟨s2, rfl⟩ := h2
  exact ⟨s1 ++ s2, by simp⟩

theorem BlockLe.append {b : Block} (s : Block) : BlockLe b (b ++ s) := ⟨s, by simp⟩

theorem BlockLe.push {a b : Block} (s : Block) (h : BlockLe a b) : BlockLe a (b ++ s) :=
  h.trans (BlockLe.append s)

theorem BlockLe.mem {a b : Block} {x : Statement} (h : BlockLe a b) (hx : x ∈ a) : x ∈ b := by
  obtain ⟨s, rfl⟩ := h
  exact List.mem_append_left s hx

/-! ## Claim C2: divergence of `IfElse` -/

theorem divergent_block_iff (b : Block) :
    divergent_block b = true ↔
      ∃ l c, b.getLast? = some (.command l c) ∧ divergent (.command l c) = true := by
  rcases hgl : b.getLast? with _ | st
  · simp [divergent_block, hgl]
  · cases st with
    | command l c =>
      cases c <;> simp [divergent_block, hgl, divergent] <;>
        exact ⟨l, _, ⟨rfl, rfl⟩, rfl⟩
    | ifElse l c ib eb => simp [divergent_block, hgl]
    | whileS l n cb c bd => simp [divergent_block, hgl]
    | loopS l n hb bd => simp [divergent_block, hgl]

/-- Claim C2 (corrected): an `IfElse` statement is `divergent` iff both
branch blocks end in a statement that is itself a divergent *command*
(`Break`, `Continue`, `Abort`, or `Return`); a branch ending in a divergent
non-command statement (e.g. a break-less `Loop` or a nested divergent
`IfElse`) does not count. -/
theorem divergent_if_else_iff_terminal_command (loc : Nat) (cond : HExp) (ib eb : Block) :
    divergent (.ifElse loc cond ib eb) = true ↔
      ((∃ l c, ib.getLast? = some (.command l c) ∧ divergent (.command l c) = true) ∧
       (∃ l c, eb.getLast? = some (.command l c) ∧ divergent (.command l c) = true)) := by
  show (divergent_block ib && divergent_block eb) = true ↔ _
  rw [Bool.and_eq_true, divergent_block_iff, divergent_block_iff]

/-- Claim C2, counterexample to the claim as stated: both branch blocks of
this `IfElse` end in a statement satisfying `divergent` (a break-less `Loop`
on the if side, an `Abort` command on the else side), yet `divergent` on the
`IfElse` is `false` — the predicate is not applied recursively to the last
statements; it only recognizes terminal commands. -/
theorem divergent_if_else_nested_counterexample :
    divergent (.ifElse 0 (unit_exp 0) [.loopS 0 [] false []]
        [.command 0 (.abort (unit_exp 0))]) = false ∧
      divergent (.loopS 0 [] false []) = true ∧
      divergent (.command 0 (.abort (unit_exp 0))) = true :=
  ⟨rfl, rfl, rfl⟩

/-! ## Claim C3: `needs_freeze` on single types -/

/-- Claim C3 (corrected): on `Single` types, `needs_freeze` returns `Point`
iff the actual type is a mutable reference and the expected type an immutable
reference — the inner types are not compared; all other `Single` cases give
`NotNeeded`. -/
theorem needs_freeze_single_point_iff (s1 s2 : SingleType) :
    (needs_freeze (.single s1) (.single s2) = .point ↔
      (∃ b1, s1 = .ref true b1) ∧ (∃ b2, s2 = .ref false b2)) ∧
    (needs_freeze (.single s1) (.single s2) = .point ∨
      needs_freeze (.single s1) (.single s2) = .notNeeded) := by
  rcases s1 with b1 | ⟨m1, b1⟩ <;> rcases s2 with b2 | ⟨m2, b2⟩ <;>
    first
      | (cases m1 <;> cases m2 <;> simp [needs_freeze, needs_freeze_single])
      | (cases m1 <;> simp [needs_freeze, needs_freeze_single])
      | (cases m2 <;> simp [needs_freeze, needs_freeze_single])
      | simp [needs_freeze, needs_freeze_single]

/-- Claim C3, counterexample to the claim as stated: actual `&mut u64`
against expected `&bool` returns `Point` although the inner types differ, so
"with the same inner type `T`" does not hold of the code. -/
theorem needs_freeze_inner_mismatch_counterexample :
    needs_freeze (.single (.ref true .u64)) (.single (.ref false .bool)) = .point ∧
      BaseType.u64 ≠ BaseType.bool :=
  ⟨rfl, by decide⟩

/-! ## Claim C9: variable mangling -/

theorem digitChar_ne_hash : ∀ d, d < 10 → Nat.digitChar d ≠ '#' := by decide

theorem digitChar_inj10 : ∀ a, a < 10 → ∀ b, b < 10 → Nat.digitChar a = Nat.digitChar b → a = b := by
  decide

theorem digitChar_eq_zero : ∀ d, d < 10 → Nat.digitChar d = '0' → d = 0 := by decide

theorem hash_not_mem_decChars (n : Nat) : '#' ∉ decChars n := by
  unfold decChars
  split
  · decide
  · intro hmem
    rw [List.mem_map] at hmem
    obtain ⟨d, hd, hdc⟩ := hmem
    rw [List.mem_reverse] at hd
    exact digitChar_ne_hash d (Nat.digits_lt_base (by norm_num) hd) hdc

theorem map_digitChar_inj : ∀ (l1 l2 : List Nat), (∀ d ∈ l1, d < 10) → (∀ d ∈ l2, d < 10) →
    l1.map Nat.digitChar = l2.map Nat.digitChar → l1 = l2 := by
  intro l1
  induction l1 with
  | nil =>
    intro l2 _ _ h
    cases l2 with
    | nil => rfl
    | cons b bs => simp at h
  | cons a as ih =>
    intro l2 h1 h2 h
    cases l2 with
    | nil => simp at h
    | cons b bs =>
      simp only [List.map_cons, List.cons.injEq] at h
      have hab : a = b :=
        digitChar_inj10 a (h1 a (by simp)) b (h2 b (by simp)) h.1
      subst hab
      rw [ih bs (fun d hd => h1 d (by simp [hd])) (fun d hd => h2 d (by simp [hd])) h.2]

theorem decChars_singleton_zero {n : Nat} (hn : n ≠ 0) :
    ['0'] ≠ (Nat.digits 10 n).reverse.map Nat.digitChar := by
  intro h
  rcases hd : Nat.digits 10 n with _ | ⟨d, ds⟩
  · exact hn (Nat.digits_eq_nil_iff_eq_zero.mp hd)
  · rw [hd] at h
    cases ds with
    | cons d2 ds2 =>
      have hlen := congrArg List.length h
      simp at hlen
    | nil =>
      simp at h
      have hd10 : d < 10 := Nat.digits_lt_base (by norm_num) (by rw [hd]; simp)
      have hd0 : d = 0 := digitChar_eq_zero d hd10 h.symm
      subst hd0
      have hlast := Nat.getLast_digit_ne_zero 10 hn
      simp [hd] at hlast

theorem decChars_inj {m n : Nat} (h : decChars m = decChars n) : m = n := by
  unfold decChars at h
  by_cases hm : m = 0 <;> by_cases hn : n = 0
  · omega
  · rw [if_pos hm, if_neg hn] at h
    exact absurd h (decChars_singleton_zero hn)
  · rw [if_neg hm, if_pos hn] at h
    exact absurd h.symm (decChars_singleton_zero hm)
  · rw [if_neg hm, if_neg hn] at h
    have hrev : (Nat.digits 10 m).reverse = (Nat.digits 10 n).reverse :=
      map_digitChar_inj _ _
        (fun d hd => Nat.digits_lt_base (by norm_num) (List.mem_reverse.mp hd))
        (fun d hd => Nat.digits_lt_base (by norm_num) (List.mem_reverse.mp hd)) h
    have hdig : Nat.digits 10 m = Nat.digits 10 n := List.reverse_injective hrev
    have h1 := Nat.ofDigits_digits 10 m
    have h2 := Nat.ofDigits_digits 10 n
    rw [hdig] at h1
    omega

theorem append_hash_cancel : ∀ (a c b d : List Char), '#' ∉ a → '#' ∉ c →
    a ++ '#' :: b = c ++ '#' :: d → a = c ∧ b = d := by
  intro a
  induction a with
  | nil =>
    intro c b d _ hc h
    cases c with
    | nil => simpa using h
    | cons y ys =>
      simp only [List.nil_append, List.cons_append, List.cons.injEq] at h
      have hy : y = '#' := h.1.symm
      subst hy
      exact absurd (List.mem_cons_self _ _) hc
  | cons x xs ih =>
    intro c b d ha hc h
    cases c with
    | nil =>
      simp only [List.cons_append, List.nil_append, List.cons.injEq] at h
      have hx : x = '#' := h.1
      subst hx
      exact absurd (List.mem_cons_self _ _) ha
    | cons y ys =>
      simp only [List.cons_append, List.cons.injEq] at h
      obtain ⟨hxy, hrest⟩ := h
      subst hxy
      have ha' : '#' ∉ xs := fun hm => ha (List.mem_cons_of_mem _ hm)
      have hc' : '#' ∉ ys := fun hm => hc (List.mem_cons_of_mem _ hm)
      obtain ⟨hac, hbd⟩ := ih ys b d ha' hc' hrest
      exact ⟨by rw [hac], hbd⟩

theorem takeWhile_append_hash (a rest : List Char) (ha : '#' ∉ a) :
    (a ++ '#' :: rest).takeWhile (fun c => c ≠ '#') = a := by
  induction a with
  | nil => simp [List.takeWhile]
  | cons x xs ih =>
    have hx : x ≠ '#' := fun h => ha (h ▸ List.mem_cons_self _ _)
    have ha' : '#' ∉ xs := fun hm => ha (List.mem_cons_of_mem _ hm)
    simp [List.takeWhile_cons, hx]
    simpa using ih ha'

theorem is_temp_name_translate_var (v : NVar) (h : v.name.head? ≠ some '%') :
    is_temp_name (translate_var v) = false := by
  unfold translate_var is_temp_name
  cases hn : v.name with
  | nil => rfl
  | cons c cs =>
    rw [hn] at h
    simp at h
    simp only [List.cons_append]
    split
    · next heq => rw [List.cons.injEq] at heq; exact absurd heq.1 h
    · rfl

/-- Claim C9 (confirmed): `translate_var` mangles `(name, id, color)` into
`name "#" id "#" color`; for variables whose names are `#`-free and do not
start with the temp marker `%`, the mangling is injective and `display_var`
recovers the original name by truncating at the first `#`. -/
theorem translate_var_injective_display (v1 v2 : NVar)
    (h1 : '#' ∉ v1.name) (h2 : '#' ∉ v2.name)
    (h1p : v1.name.head? ≠ some '%') (_h2p : v2.name.head? ≠ some '%') :
    (v1 ≠ v2 → translate_var v1 ≠ translate_var v2) ∧
      display_var (translate_var v1) = .orig v1.name := by
  constructor
  · intro hne heq
    unfold translate_var at heq
    obtain ⟨hname, hrest⟩ := append_hash_cancel _ _ _ _ h1 h2 heq
    obtain ⟨hid, hcolor⟩ := append_hash_cancel _ _ _ _
      (hash_not_mem_decChars _) (hash_not_mem_decChars _) hrest
    have hid' : v1.id = v2.id := decChars_inj hid
    have hcolor' : v1.color = v2.color := decChars_inj hcolor
    cases v1; cases v2
    simp_all
  · unfold display_var
    rw [is_temp_name_translate_var v1 h1p]
    simp only [Bool.false_eq_true, if_false]
    unfold translate_var
    rw [takeWhile_append_hash _ _ h1]

/-- Witness for C9: two distinct shadowed copies of `x` get distinct mangled
symbols, and the original name is recovered. -/
theorem translate_var_injective_display_witness :
    translate_var ⟨['x'], 0, 0⟩ ≠ translate_var ⟨['x'], 1, 0⟩ ∧
      display_var (translate_var ⟨['x'], 0, 0⟩) = .orig ['x'] := by
  have h := translate_var_injective_display ⟨['x'], 0, 0⟩ ⟨['x'], 1, 0⟩
    (by decide) (by decide) (by decide) (by decide)
  exact ⟨h.1 (by decide), h.2⟩

/-! ## Structural invariant: lowering only appends statements, and the temp
counter never decreases -/

theorem make_ignore_and_pop_le (block : Block) (e : Option HExp) :
    BlockLe block (make_ignore_and_pop block e) := by
  rcases e with _ | ⟨ty, loc, ue⟩
  · exact BlockLe.rfl
  · cases ty
    · cases ue <;> first | exact BlockLe.rfl | exact BlockLe.append _
    · exact BlockLe.append _
    · exact BlockLe.append _

theorem foldl_make_temp_counter (loc : Nat) :
    ∀ (tys : List SingleType) (acc : Context × List HLValue × List HExp),
    acc.1.tmp_counter ≤
      (tys.foldl
        (fun (acc : Context × List HLValue × List HExp) single_type =>
          let (ctx, bs, vs) := acc
          let (ctx, b, v) := make_temp ctx loc single_type
          (ctx, bs ++ [b], vs ++ [v]))
        acc).1.tmp_counter := by
  intro tys
  induction tys with
  | nil => intro acc; exact Nat.le_refl _
  | cons t ts ih =>
    intro acc
    refine Nat.le_trans ?_ (ih _)
    obtain ⟨c, bs, vs⟩ := acc
    exact Nat.le_succ _

theorem make_binders_counter (ctx : Context) (loc : Nat) (ty : HType) :
    ctx.tmp_counter ≤ (make_binders ctx loc ty).1.tmp_counter := by
  cases ty with
  | unit => exact Nat.le_refl _
  | single st => exact Nat.le_succ _
  | multiple tys => exact foldl_make_temp_counter loc tys (ctx, [], [])

theorem declare_bind_counter (ctx : Context) (b : TLValue) :
    (declare_bind ctx b).tmp_counter = ctx.tmp_counter := by
  cases b <;> rfl

theorem declare_bind_list_counter (ctx : Context) (binds : List TLValue) :
    (declare_bind_list ctx binds).tmp_counter = ctx.tmp_counter := by
  unfold declare_bind_list
  induction binds generalizing ctx with
  | nil => rfl
  | cons b bs ih => rw [List.foldl_cons, ih, declare_bind_counter]

theorem make_assignments_mono (ctx : Context) (block : Block) (loc : Nat)
    (assigns : List TLValue) (rvalue : HExp) (ctx' : Context) (block' : Block)
    (h : make_assignments ctx block loc assigns rvalue = some (ctx', block')) :
    BlockLe block block' ∧ ctx' = ctx := by
  unfold make_assignments at h
  cases hl : make_assignments_loop rvalue.ty 0 assigns with
  | none => rw [hl] at h; exact Option.noConfusion h
  | some res =>
    obtain ⟨lvs, after⟩ := res
    rw [hl] at h
    simp only [Option.some.injEq, Prod.mk.injEq] at h
    obtain ⟨h1, h2⟩ := h
    subst h1; subst h2
    exact ⟨⟨[make_command loc (.assign lvs rvalue)] ++ after, by simp⟩, rfl⟩

/-- Monotonicity of the freeze/bind helper cluster: the returned block extends
the given one and the temp counter never decreases. -/
theorem freeze_cluster_monotone : ∀ fuel : Nat,
    (∀ ctx et e ctx' stmts fe, freeze fuel ctx et e = some (ctx', stmts, fe) →
      ctx.tmp_counter ≤ ctx'.tmp_counter) ∧
    (∀ ctx stmts e ctx' stmts' fe, bind_exp fuel ctx stmts e = some (ctx', stmts', fe) →
      BlockLe stmts stmts' ∧ ctx.tmp_counter ≤ ctx'.tmp_counter) ∧
    (∀ ctx binders bt stmts ve ctx' stmts' fl,
      bind_value_in_block fuel ctx binders bt stmts ve = some (ctx', stmts', fl) →
      BlockLe stmts stmts' ∧ ctx.tmp_counter ≤ ctx'.tmp_counter) ∧
    (∀ ctx block et e ctx' block' res, maybe_freeze fuel ctx block et e = some (ctx', block', res) →
      BlockLe block block' ∧ ctx.tmp_counter ≤ ctx'.tmp_counter) ∧
    (∀ ctx stmts e ctx' stmts' res, maybe_bind_exp fuel ctx stmts e = some (ctx', stmts', res) →
      BlockLe stmts stmts' ∧ ctx.tmp_counter ≤ ctx'.tmp_counter) := by
  intro fuel
  induction fuel with
  | zero =>
    exact ⟨fun ctx et e ctx' stmts fe h => Option.noConfusion h,
      fun ctx stmts e ctx' stmts' fe h => Option.noConfusion h,
      fun ctx binders bt stmts ve ctx' stmts' fl h => Option.noConfusion h,
      fun ctx block et e ctx' block' res h => Option.noConfusion h,
      fun ctx stmts e ctx' stmts' res h => Option.noConfusion h⟩
  | succ fuel ih =>
    obtain ⟨ihfrz, ihbe, ihbvib, ihmf, ihmbe⟩ := ih
    refine ⟨?_, ?_, ?_, ?_, ?_⟩
    · -- freeze
      intro ctx et e ctx' stmts fe h
      simp only [freeze] at h
      split at h
      · simp only [Option.some.injEq, Prod.mk.injEq] at h
        rw [← h.1]
      · simp only [Option.some.injEq, Prod.mk.injEq] at h
        rw [← h.1]
      · rename_i points hnf
        cases hbe : bind_exp fuel ctx [] e with
        | none => rw [hbe] at h; exact Option.noConfusion h
        | some r1 =>
          obtain ⟨ctx1, bind_stmts, bound_rhs⟩ := r1
          rw [hbe] at h
          dsimp only at h
          have hc1 := (ihbe _ _ _ _ _ _ hbe).2
          rcases bound_rhs with ⟨bty, bloc, bue⟩
          cases bue <;> try exact Option.noConfusion h
          case multiple exps =>
            dsimp only at h
            cases hm : ((exps.zip points).map freeze_flagged).mapM single_ty_of with
            | none => rw [hm] at h; exact Option.noConfusion h
            | some tys =>
              rw [hm] at h
              simp only [Option.some.injEq, Prod.mk.injEq] at h
              rw [← h.1]
              exact hc1
    · -- bind_exp
      intro ctx stmts e ctx' stmts' fe h
      simp only [bind_exp] at h
      rcases hmb : make_binders ctx e.loc e.ty with ⟨ctx1, binders, var_exp⟩
      rw [hmb] at h
      cases hb : bind_value_in_block fuel ctx1 binders (some e.ty) stmts (some e) with
      | none => rw [hb] at h; exact Option.noConfusion h
      | some r =>
        obtain ⟨ctx2, stmts2, fl⟩ := r
        rw [hb] at h
        simp only [Option.some.injEq, Prod.mk.injEq] at h
        obtain ⟨h1, h2, h3⟩ := h
        subst h1; subst h2
        have hc0 : ctx.tmp_counter ≤ ctx1.tmp_counter := by
          have := make_binders_counter ctx e.loc e.ty
          rw [hmb] at this
          exact this
        have := ihbvib _ _ _ _ _ _ _ _ hb
        exact ⟨this.1, Nat.le_trans hc0 this.2⟩
    · -- bind_value_in_block
      intro ctx binders bt stmts ve ctx' stmts' fl h
      simp only [bind_value_in_block] at h
      split at h
      · exact Option.noConfusion h
      · cases hmf : maybe_freeze fuel ctx stmts bt ve with
        | none => rw [hmf] at h; exact Option.noConfusion h
        | some r =>
          obtain ⟨ctx1, stmts1, rhs⟩ := r
          rw [hmf] at h
          have hstep := ihmf _ _ _ _ _ _ _ hmf
          cases rhs with
          | some real_exp =>
            simp only [Option.some.injEq, Prod.mk.injEq] at h
            obtain ⟨h1, h2, h3⟩ := h
            subst h1; subst h2
            exact ⟨hstep.1.push _, hstep.2⟩
          | none =>
            simp only [Option.some.injEq, Prod.mk.injEq] at h
            obtain ⟨h1, h2, h3⟩ := h
            subst h1; subst h2
            exact hstep
    · -- maybe_freeze
      intro ctx block et e ctx' block' res h
      simp only [maybe_freeze] at h
      cases e with
      | none =>
        dsimp only at h
        simp only [Option.some.injEq, Prod.mk.injEq] at h
        obtain ⟨h1, h2, h3⟩ := h
        subst h1; subst h2
        exact ⟨BlockLe.rfl, Nat.le_refl _⟩
      | some exp =>
        dsimp only at h
        by_cases hun : exp.is_unreachable = true
        · rw [if_pos hun] at h
          simp only [Option.some.injEq, Prod.mk.injEq] at h
          obtain ⟨h1, h2, h3⟩ := h
          subst h1; subst h2
          exact ⟨BlockLe.rfl, Nat.le_refl _⟩
        · rw [if_neg hun] at h
          cases et with
          | some expected_type =>
            dsimp only at h
            cases hf : freeze fuel ctx expected_type exp with
            | none => rw [hf] at h; exact Option.noConfusion h
            | some r =>
              obtain ⟨ctx1, stmts, fe⟩ := r
              rw [hf] at h
              simp only [Option.some.injEq, Prod.mk.injEq] at h
              obtain ⟨h1, h2, h3⟩ := h
              subst h1; subst h2
              exact ⟨BlockLe.append _, ihfrz _ _ _ _ _ _ hf⟩
          | none =>
            dsimp only at h
            simp only [Option.some.injEq, Prod.mk.injEq] at h
            obtain ⟨h1, h2, h3⟩ := h
            subst h1; subst h2
            exact ⟨BlockLe.rfl, Nat.le_refl _⟩
    · -- maybe_bind_exp
      intro ctx stmts e ctx' stmts' res h
      simp only [maybe_bind_exp] at h
      cases e with
      | none =>
        dsimp only at h
        simp only [Option.some.injEq, Prod.mk.injEq] at h
        obtain ⟨h1, h2, h3⟩ := h
        subst h1; subst h2
        exact ⟨BlockLe.rfl, Nat.le_refl _⟩
      | some e =>
        dsimp only at h
        rcases hmb : make_binders ctx e.loc e.ty with ⟨ctx1, binders, var_exp⟩
        rw [hmb] at h
        have hc0 : ctx.tmp_counter ≤ ctx1.tmp_counter := by
          have := make_binders_counter ctx e.loc e.ty
          rw [hmb] at this
          exact this
        split at h
        · simp only [Option.some.injEq, Prod.mk.injEq] at h
          obtain ⟨h1, h2, h3⟩ := h
          subst h1; subst h2
          exact ⟨make_ignore_and_pop_le _ _, hc0⟩
        · cases hb : bind_value_in_block fuel ctx1 binders (some e.ty) stmts (some e) with
          | none => rw [hb] at h; exact Option.noConfusion h
          | some r =>
            obtain ⟨ctx2, stmts2, fl⟩ := r
            rw [hb] at h
            simp only [Option.some.injEq, Prod.mk.injEq] at h
            obtain ⟨h1, h2, h3⟩ := h
            subst h1; subst h2
            have := ihbvib _ _ _ _ _ _ _ _ hb
            exact ⟨this.1, Nat.le_trans hc0 this.2⟩

/-! ## Claim C1: `value_evaluation_order` -/

set_option maxHeartbeats 1000000 in
/-- Monotonicity of the fourteen lowering functions: a successful run only
appends statements to the output block and never decreases the temporary
counter. -/
theorem lowering_monotone : ∀ fuel : Nat,
    (∀ ctx block expd e ctx' block' res, value fuel ctx block expd e = some (ctx', block', res) →
      BlockLe block block' ∧ ctx.tmp_counter ≤ ctx'.tmp_counter) ∧
    (∀ ctx block expd e ctx' block' res, tail fuel ctx block expd e = some (ctx', block', res) →
      BlockLe block block' ∧ ctx.tmp_counter ≤ ctx'.tmp_counter) ∧
    (∀ ctx block e ctx' block', statement fuel ctx block e = some (ctx', block') →
      BlockLe block block' ∧ ctx.tmp_counter ≤ ctx'.tmp_counter) ∧
    (∀ ctx block expd seq ctx' block' res,
      tail_block fuel ctx block expd seq = some (ctx', block', res) →
      BlockLe block block' ∧ ctx.tmp_counter ≤ ctx'.tmp_counter) ∧
    (∀ ctx block expd seq ctx' block' res,
      value_block fuel ctx block expd seq = some (ctx', block', res) →
      BlockLe block block' ∧ ctx.tmp_counter ≤ ctx'.tmp_counter) ∧
    (∀ ctx block ty e ctx' block' res, value_list fuel ctx block ty e = some (ctx', block', res) →
      BlockLe block block' ∧ ctx.tmp_counter ≤ ctx'.tmp_counter) ∧
    (∀ ctx block seq sp ctx' block', statement_block fuel ctx block seq sp = some (ctx', block') →
      BlockLe block block' ∧ ctx.tmp_counter ≤ ctx'.tmp_counter) ∧
    (∀ ctx block seq htu ctx' block', sb_items fuel ctx block seq htu = some (ctx', block') →
      BlockLe block block' ∧ ctx.tmp_counter ≤ ctx'.tmp_counter) ∧
    (∀ ctx block e ctx' block', value_statement fuel ctx block e = some (ctx', block') →
      BlockLe block block' ∧ ctx.tmp_counter ≤ ctx'.tmp_counter) ∧
    (∀ ctx e ctx' b, process_loop_body fuel ctx e = some (ctx', b) →
      ctx.tmp_counter ≤ ctx'.tmp_counter) ∧
    (∀ ctx block l ctx' block' vals,
      value_evaluation_order fuel ctx block l = some (ctx', block', vals) →
      BlockLe block block' ∧ ctx.tmp_counter ≤ ctx'.tmp_counter) ∧
    (∀ ctx l nb stmts vals ctx' stmts' vals',
      veo_items fuel ctx l nb stmts vals = some (ctx', stmts', vals') →
      ctx.tmp_counter ≤ ctx'.tmp_counter) ∧
    (∀ ctx block items ctx' block' vs, exp_list_values fuel ctx block items = some (ctx', block', vs) →
      BlockLe block block' ∧ ctx.tmp_counter ≤ ctx'.tmp_counter) ∧
    (∀ ctx block tfs fields ctx' block' fields',
      pack_reorder_fields fuel ctx block tfs fields = some (ctx', block', fields') →
      BlockLe block block' ∧ ctx.tmp_counter ≤ ctx'.tmp_counter) := by
  intro fuel
  induction fuel with
  | zero =>
    exact ⟨fun ctx block expd e ctx' block' res h => Option.noConfusion h,
      fun ctx block expd e ctx' block' res h => Option.noConfusion h,
      fun ctx block e ctx' block' h => Option.noConfusion h,
      fun ctx block expd seq ctx' block' res h => Option.noConfusion h,
      fun ctx block expd seq ctx' block' res h => Option.noConfusion h,
      fun ctx block ty e ctx' block' res h => Option.noConfusion h,
      fun ctx block seq sp ctx' block' h => Option.noConfusion h,
      fun ctx block seq htu ctx' block' h => Option.noConfusion h,
      fun ctx block e ctx' block' h => Option.noConfusion h,
      fun ctx e ctx' b h => Option.noConfusion h,
      fun ctx block l ctx' block' vals h => Option.noConfusion h,
      fun ctx l nb stmts vals ctx' stmts' vals' h => Option.noConfusion h,
      fun ctx block items ctx' block' vs h => Option.noConfusion h,
      fun ctx block tfs fields ctx' block' fields' h => Option.noConfusion h⟩
  | succ fuel ih =>
    obtain ⟨ihval, ihtail, ihstmt, ihtb, ihvb, ihvl, ihsb, ihsbi, ihvs, ihplb, ihveo,
      ihvei, ihelv, ihprf⟩ := ih
    have mf_mono := (freeze_cluster_monotone fuel).2.2.2.1
    have bvib_mono := (freeze_cluster_monotone fuel).2.2.1
    have be_mono := (freeze_cluster_monotone fuel).2.1
    have mbe_mono := (freeze_cluster_monotone fuel).2.2.2.2
    refine ⟨?_, ?_, ?_, ?_, ?_, ?_, ?_, ?_, ?_, ?_, ?_, ?_, ?_, ?_⟩
    · -- value
      intro ctx block expd e ctx' block' res h
      by_cases hs : is_statement e = true
      · simp only [value, hs, if_true] at h
        by_cases hu : is_unit_statement e = true
        · simp only [hu, if_true] at h
          split at h
          · exact Option.noConfusion h
          · rename_i c1 b1 heq
            simp only [Option.some.injEq, Prod.mk.injEq] at h
            obtain ⟨h1, h2, h3⟩ := h
            subst h1; subst h2
            exact ihstmt _ _ _ _ _ heq
        · simp only [if_neg hu] at h
          split at h
          · exact Option.noConfusion h
          · rename_i c1 b1 heq
            simp only [Option.some.injEq, Prod.mk.injEq] at h
            obtain ⟨h1, h2, h3⟩ := h
            subst h1; subst h2
            have hm := ihstmt _ _ _ _ _ heq
            exact ⟨hm.1, hm.2⟩
      · rcases e with ⟨ety, eloc, ue⟩
        cases ue <;>
          simp only [value, is_statement, is_unit_statement, TExp.e, TExp.ty, TExp.loc,
            if_false, Bool.false_eq_true] at h <;>
          try exact (freeze_cluster_monotone fuel).2.2.2.1 _ _ _ _ _ _ _ h
        next module name ptys arguments =>
          split at h
          · exact Option.noConfusion h
          · rename_i cF bF pF heq
            have h2 := mf_mono _ _ _ _ _ _ _ h
            split at heq
            · exact Option.noConfusion heq
            · rename_i c1 b1 margs heq1
              have h1 := ihvl _ _ _ _ _ _ _ heq1
              cases margs <;> dsimp only at heq <;>
                simp only [Option.some.injEq, Prod.mk.injEq] at heq <;>
                obtain ⟨hc, hb, -⟩ := heq <;> subst hc <;> subst hb <;>
                exact ⟨h1.1.trans h2.1, Nat.le_trans h1.2 h2.2⟩
        next abort_on_false arguments =>
          cases abort_on_false
          · dsimp only at h
            rcases arguments with ⟨aty, aloc, aue⟩
            dsimp only [TExp.e] at h
            cases aue <;> try exact Option.noConfusion h
            rename_i items
            rcases items with _ | ⟨⟨econd, tcond⟩, _ | ⟨⟨ecode, tcode⟩, _ | ⟨p3, rest⟩⟩⟩ <;>
              dsimp only at h <;> try exact Option.noConfusion h
            split at h
            · exact Option.noConfusion h
            · rename_i cF bF pF heq
              have h2 := mf_mono _ _ _ _ _ _ _ h
              split at heq
              · exact Option.noConfusion heq
              · rename_i c1 b1 cv heq1
                split at heq
                · exact Option.noConfusion heq
                · rename_i c2 b2 codev heq2
                  have h1 := ihval _ _ _ _ _ _ _ heq1
                  have h1b := ihval _ _ _ _ _ _ _ heq2
                  cases cv <;> cases codev <;> dsimp only at heq <;>
                    simp only [Option.some.injEq, Prod.mk.injEq] at heq <;>
                    obtain ⟨hc, hb, -⟩ := heq <;> subst hc <;> subst hb <;>
                    first
                    | exact ⟨h1.1.trans (h1b.1.trans h2.1),
                        Nat.le_trans h1.2 (Nat.le_trans h1b.2 h2.2)⟩
                    | exact ⟨h1.1.trans (h1b.1.trans (BlockLe.trans (BlockLe.append _) h2.1)),
                        Nat.le_trans h1.2 (Nat.le_trans h1b.2 h2.2)⟩
          · dsimp only at h
            rcases arguments with ⟨aty, aloc, aue⟩
            dsimp only [TExp.e] at h
            cases aue <;> try exact Option.noConfusion h
            rename_i items
            rcases items with _ | ⟨⟨econd, tcond⟩, _ | ⟨⟨ecode, tcode⟩, _ | ⟨p3, rest⟩⟩⟩ <;>
              dsimp only at h <;> try exact Option.noConfusion h
            split at h
            · exact Option.noConfusion h
            · rename_i cF bF pF heq
              have h2 := mf_mono _ _ _ _ _ _ _ h
              split at heq
              · exact Option.noConfusion heq
              · rename_i c1 b1 cv heq1
                split at heq
                · exact Option.noConfusion heq
                · rename_i c2 b2 codev heq2
                  have h1 := ihval _ _ _ _ _ _ _ heq1
                  have h1b := ihval _ _ _ _ _ _ _ heq2
                  cases cv <;> cases codev <;> dsimp only at heq <;>
                    simp only [Option.some.injEq, Prod.mk.injEq] at heq <;>
                    obtain ⟨hc, hb, -⟩ := heq <;> subst hc <;> subst hb <;>
                    first
                    | exact ⟨h1.1.trans h2.1, Nat.le_trans h1.2 (Nat.le_trans h1b.2 h2.2)⟩
                    | exact ⟨h1.1.trans (BlockLe.trans (BlockLe.append _) h2.1),
                        Nat.le_trans h1.2 (Nat.le_trans h1b.2 h2.2)⟩
        next test conseq alt =>
          split at h
          · exact Option.noConfusion h
          · rename_i cF bF pF heq
            have h2 := mf_mono _ _ _ _ _ _ _ h
            split at heq
            · exact Option.noConfusion heq
            · rename_i c1 b1 cond heq1
              split at heq
              · exact Option.noConfusion heq
              · rename_i c2 ifb cexp heq2
                split at heq
                · exact Option.noConfusion heq
                · rename_i c3 elb aexp heq3
                  rcases hmb : make_binders c3 eloc ety with ⟨c4, binders, bexp⟩
                  rw [hmb] at heq
                  try dsimp only at heq
                  have hc4 : c3.tmp_counter ≤ c4.tmp_counter := by
                    have := make_binders_counter c3 eloc ety
                    rw [hmb] at this
                    exact this
                  split at heq
                  · exact Option.noConfusion heq
                  · rename_i c5 ifb2 ibnd heq4
                    split at heq
                    · exact Option.noConfusion heq
                    · rename_i c6 elb2 ebnd heq5
                      have hcc : ctx.tmp_counter ≤ c6.tmp_counter :=
                        Nat.le_trans (ihval _ _ _ _ _ _ _ heq1).2
                          (Nat.le_trans (ihtail _ _ _ _ _ _ _ heq2).2
                            (Nat.le_trans (ihtail _ _ _ _ _ _ _ heq3).2
                              (Nat.le_trans hc4
                                (Nat.le_trans (bvib_mono _ _ _ _ _ _ _ _ heq4).2
                                  (bvib_mono _ _ _ _ _ _ _ _ heq5).2))))
                      have hbb : BlockLe block b1 := (ihval _ _ _ _ _ _ _ heq1).1
                      cases cond <;> dsimp only at heq <;>
                        simp only [Option.some.injEq, Prod.mk.injEq] at heq <;>
                        obtain ⟨hc, hb, -⟩ := heq <;> subst hc <;> subst hb <;>
                        first
                        | exact ⟨hbb.trans h2.1, Nat.le_trans hcc h2.2⟩
                        | exact ⟨hbb.trans (BlockLe.trans (BlockLe.append _) h2.1),
                            Nat.le_trans hcc h2.2⟩
        next name test body =>
          split at h
          · exact Option.noConfusion h
          · rename_i cF bF pF heq
            have h2 := mf_mono _ _ _ _ _ _ _ h
            split at heq
            · exact Option.noConfusion heq
            · rename_i c1 b1 heq1
              have h1 := ihstmt _ _ _ _ _ heq1
              try dsimp only at heq
              simp only [Option.some.injEq, Prod.mk.injEq] at heq
              obtain ⟨hc, hb, -⟩ := heq
              subst hc; subst hb
              exact ⟨h1.1.trans h2.1, Nat.le_trans h1.2 h2.2⟩
        next name has_break body =>
          cases has_break
          · dsimp only at h
            split at h
            · exact Option.noConfusion h
            · rename_i cF bF pF heq
              have h2 := mf_mono _ _ _ _ _ _ _ h
              split at heq
              · exact Option.noConfusion heq
              · rename_i c1 b1 heq1
                have h1 := ihstmt _ _ _ _ _ heq1
                try dsimp only at heq
                simp only [Option.some.injEq, Prod.mk.injEq] at heq
                obtain ⟨hc, hb, -⟩ := heq
                subst hc; subst hb
                exact ⟨h1.1.trans h2.1, Nat.le_trans h1.2 h2.2⟩
          · dsimp only at h
            rcases hmb : make_binders ctx eloc ety with ⟨c1, binders, bexp⟩
            rw [hmb] at h
            dsimp only at h
            have hc1 : ctx.tmp_counter ≤ c1.tmp_counter := by
              have := make_binders_counter ctx eloc ety
              rw [hmb] at this
              exact this
            split at h
            · exact Option.noConfusion h
            · rename_i cF bF pF heq
              have h2 := mf_mono _ _ _ _ _ _ _ h
              split at heq
              · exact Option.noConfusion heq
              · rename_i c2 lb heq1
                have h1 := ihplb _ _ _ _ heq1
                try dsimp only at heq
                simp only [Option.some.injEq, Prod.mk.injEq] at heq
                obtain ⟨hc, hb, -⟩ := heq
                subst hc; subst hb
                refine ⟨BlockLe.trans (BlockLe.append _) h2.1, ?_⟩
                exact Nat.le_trans hc1 (Nat.le_trans h1 h2.2)
        next seq =>
          split at h
          · exact Option.noConfusion h
          · rename_i c1 b1 p1 heq
            have h1 := ihvb _ _ _ _ _ _ _ heq
            have h2 := mf_mono _ _ _ _ _ _ _ h
            exact ⟨h1.1.trans h2.1, Nat.le_trans h1.2 h2.2⟩
        next e => exact absurd rfl hs
        next e => exact absurd rfl hs
        next n e => exact absurd rfl hs
        next n => exact absurd rfl hs
        next a b c => exact absurd rfl hs
        next a b => exact absurd rfl hs
        next m s tys tfields =>
          split at h
          · exact Option.noConfusion h
          · rename_i cF bF pF heq
            have h2 := mf_mono _ _ _ _ _ _ _ h
            split at heq
            · exact Option.noConfusion heq
            · rename_i tf heq0
              split at heq
              · split at heq
                · exact Option.noConfusion heq
                · rename_i c1 b1 fexps heq1
                  have h1 := ihveo _ _ _ _ _ _ heq1
                  try dsimp only at heq
                  simp only [Option.some.injEq, Prod.mk.injEq] at heq
                  obtain ⟨hc, hb, -⟩ := heq
                  subst hc; subst hb
                  exact ⟨h1.1.trans h2.1, Nat.le_trans h1.2 h2.2⟩
              · split at heq
                · exact Option.noConfusion heq
                · rename_i c1 b1 fout heq1
                  have h1 := ihprf _ _ _ _ _ _ _ heq1
                  try dsimp only at heq
                  simp only [Option.some.injEq, Prod.mk.injEq] at heq
                  obtain ⟨hc, hb, -⟩ := heq
                  subst hc; subst hb
                  exact ⟨h1.1.trans h2.1, Nat.le_trans h1.2 h2.2⟩
        next items =>
          split at h
          · exact Option.noConfusion h
          · rename_i cF bF pF heq
            have h2 := mf_mono _ _ _ _ _ _ _ h
            split at heq
            · exact Option.noConfusion heq
            · rename_i c1 b1 vs heq1
              have h1 := ihelv _ _ _ _ _ _ heq1
              try dsimp only at heq
              simp only [Option.some.injEq, Prod.mk.injEq] at heq
              obtain ⟨hc, hb, -⟩ := heq
              subst hc; subst hb
              exact ⟨h1.1.trans h2.1, Nat.le_trans h1.2 h2.2⟩
        next base rhs_ty =>
          split at h
          · exact Option.noConfusion h
          · rename_i c1 b1 p1 heq
            have h1 := ihval _ _ _ _ _ _ _ heq
            have h2 := mf_mono _ _ _ _ _ _ _ h
            exact ⟨h1.1.trans h2.1, Nat.le_trans h1.2 h2.2⟩
    · -- tail
      intro ctx block expd e ctx' block' res h
      by_cases hs : is_statement e = true
      · simp only [tail, hs, if_true] at h
        split at h
        · exact Option.noConfusion h
        · rename_i c1 b1 heq
          simp only [Option.some.injEq, Prod.mk.injEq] at h
          obtain ⟨hc, hb, -⟩ := h
          subst hc; subst hb
          exact ihstmt _ _ _ _ _ heq
      · rcases e with ⟨ety, eloc, ue⟩
        cases ue <;>
          simp only [tail, is_statement, is_unit_statement, TExp.e, TExp.ty, TExp.loc,
            if_false, Bool.false_eq_true] at h <;>
          first
          | exact absurd rfl hs
          | exact ihval _ _ _ _ _ _ _ h
          | exact ihtb _ _ _ _ _ _ _ h
          | skip
        next test conseq alt =>
          split at h
          · exact Option.noConfusion h
          · rename_i c1 b1 cond heq1
            split at h
            · exact Option.noConfusion h
            · rename_i c2 ifb cexp heq2
              split at h
              · exact Option.noConfusion h
              · rename_i c3 elb aexp heq3
                rcases hmb : make_binders c3 eloc ety with ⟨c4, binders, bexp⟩
                rw [hmb] at h
                dsimp only at h
                have hc4 : c3.tmp_counter ≤ c4.tmp_counter := by
                  have := make_binders_counter c3 eloc ety
                  rw [hmb] at this
                  exact this
                split at h
                · exact Option.noConfusion h
                · rename_i c5 ifb2 ibnd heq4
                  split at h
                  · exact Option.noConfusion h
                  · rename_i c6 elb2 ebnd heq5
                    have hcc : ctx.tmp_counter ≤ c6.tmp_counter :=
                      Nat.le_trans (ihval _ _ _ _ _ _ _ heq1).2
                        (Nat.le_trans (ihtail _ _ _ _ _ _ _ heq2).2
                          (Nat.le_trans (ihtail _ _ _ _ _ _ _ heq3).2
                            (Nat.le_trans hc4
                              (Nat.le_trans (bvib_mono _ _ _ _ _ _ _ _ heq4).2
                                (bvib_mono _ _ _ _ _ _ _ _ heq5).2))))
                    have hbb : BlockLe block b1 := (ihval _ _ _ _ _ _ _ heq1).1
                    cases cond <;> try dsimp only at h <;>
                      simp only [Option.some.injEq, Prod.mk.injEq] at h <;>
                      obtain ⟨hc, hb, -⟩ := h <;> subst hc <;> subst hb <;>
                      first
                      | exact ⟨hbb, hcc⟩
                      | exact ⟨hbb.trans (BlockLe.append _), hcc⟩
        next name test body =>
          split at h
          · exact Option.noConfusion h
          · rename_i c1 b1 heq
            simp only [Option.some.injEq, Prod.mk.injEq] at h
            obtain ⟨hc, hb, -⟩ := h
            subst hc; subst hb
            exact ihstmt _ _ _ _ _ heq
        next name hbk body =>
          cases hbk
          · dsimp only at h
            split at h
            · exact Option.noConfusion h
            · rename_i c1 b1 heq
              simp only [Option.some.injEq, Prod.mk.injEq] at h
              obtain ⟨hc, hb, -⟩ := h
              subst hc; subst hb
              exact ihstmt _ _ _ _ _ heq
          · dsimp only at h
            rcases hmb : make_binders ctx eloc ety with ⟨c1, binders, bexp⟩
            rw [hmb] at h
            dsimp only at h
            have hc1 : ctx.tmp_counter ≤ c1.tmp_counter := by
              have := make_binders_counter ctx eloc ety
              rw [hmb] at this
              exact this
            split at h
            · exact Option.noConfusion h
            · rename_i c2 lb heq
              have h1 := ihplb _ _ _ _ heq
              simp only [Option.some.injEq, Prod.mk.injEq] at h
              obtain ⟨hc, hb, -⟩ := h
              subst hc; subst hb
              exact ⟨BlockLe.append _, Nat.le_trans hc1 h1⟩
    · -- statement
      intro ctx block e ctx' block' h
      rcases e with ⟨ety, eloc, ue⟩
      cases ue <;>
        simp only [statement, TExp.e, TExp.ty, TExp.loc] at h <;>
        first
        | exact ihvs _ _ _ _ _ h
        | exact ihsb _ _ _ _ _ _ h
        | (simp only [Option.some.injEq, Prod.mk.injEq] at h
           obtain ⟨hc, hb⟩ := h
           subst hc
           subst hb
           first
           | exact ⟨BlockLe.rfl, Nat.le_refl _⟩
           | exact ⟨BlockLe.append _, Nat.le_refl _⟩)
        | skip
      next test conseq alt =>
        split at h
        · exact Option.noConfusion h
        · rename_i c1 b1 cond heq1
          split at h
          · exact Option.noConfusion h
          · rename_i c2 ifb heq2
            split at h
            · exact Option.noConfusion h
            · rename_i c3 elb heq3
              have hcc : ctx.tmp_counter ≤ c3.tmp_counter :=
                Nat.le_trans (ihval _ _ _ _ _ _ _ heq1).2
                  (Nat.le_trans (ihstmt _ _ _ _ _ heq2).2 (ihstmt _ _ _ _ _ heq3).2)
              have hbb : BlockLe block b1 := (ihval _ _ _ _ _ _ _ heq1).1
              cases cond <;> try dsimp only at h <;>
                simp only [Option.some.injEq, Prod.mk.injEq] at h <;>
                obtain ⟨hc, hb⟩ := h <;> subst hc <;> subst hb <;>
                first
                | exact ⟨hbb, hcc⟩
                | exact ⟨hbb.trans (BlockLe.append _), hcc⟩
      next name test body =>
        split at h
        · exact Option.noConfusion h
        · rename_i c1 cb ce heq1
          split at h
          · exact Option.noConfusion h
          · rename_i c2 bb heq2
            have h1 := ihval _ _ _ _ _ _ _ heq1
            have h2 := ihstmt _ _ _ _ _ heq2
            cases ce <;> dsimp only at h <;>
              simp only [Option.some.injEq, Prod.mk.injEq] at h <;>
              obtain ⟨hc, hb⟩ := h <;> subst hc <;> subst hb <;>
              exact ⟨BlockLe.append _, Nat.le_trans h1.2 h2.2⟩
      next name hbk body =>
        rcases hmb : make_binders ctx eloc ety with ⟨c1, binders, bexp⟩
        rw [hmb] at h
        dsimp only at h
        have hc1 : ctx.tmp_counter ≤ c1.tmp_counter := by
          have := make_binders_counter ctx eloc ety
          rw [hmb] at this
          exact this
        split at h
        · exact Option.noConfusion h
        · rename_i c2 lb heq
          have h1 := ihplb _ _ _ _ heq
          split at h
          · simp only [Option.some.injEq, Prod.mk.injEq] at h
            obtain ⟨hc, hb⟩ := h
            subst hc; subst hb
            exact ⟨BlockLe.trans (BlockLe.append _) (make_ignore_and_pop_le _ _),
              Nat.le_trans hc1 h1⟩
          · simp only [Option.some.injEq, Prod.mk.injEq] at h
            obtain ⟨hc, hb⟩ := h
            subst hc; subst hb
            exact ⟨BlockLe.append _, Nat.le_trans hc1 h1⟩
      next rhs =>
        split at h
        · exact Option.noConfusion h
        · rename_i c1 b1 rv heqv
          have h1 := ihval _ _ _ _ _ _ _ heqv
          cases rv <;> dsimp only at h <;>
            simp only [Option.some.injEq, Prod.mk.injEq] at h <;>
            obtain ⟨hc, hb⟩ := h <;> subst hc <;> subst hb <;>
            first
            | exact h1
            | exact ⟨h1.1.trans (BlockLe.append _), h1.2⟩
      next rhs =>
        split at h
        · exact Option.noConfusion h
        · rename_i c1 b1 rv heqv
          have h1 := ihval _ _ _ _ _ _ _ heqv
          cases rv <;> dsimp only at h <;>
            simp only [Option.some.injEq, Prod.mk.injEq] at h <;>
            obtain ⟨hc, hb⟩ := h <;> subst hc <;> subst hb <;>
            first
            | exact h1
            | exact ⟨h1.1.trans (BlockLe.append _), h1.2⟩
      next name rhs =>
        split at h
        · exact Option.noConfusion h
        · rename_i c1 b1 rv heqv
          have h1 := ihval _ _ _ _ _ _ _ heqv
          split at h
          · exact Option.noConfusion h
          · rename_i binders heqL
            by_cases hbe : binders.isEmpty = true
            · rw [if_pos hbe] at h
              dsimp only at h
              simp only [Option.some.injEq, Prod.mk.injEq] at h
              obtain ⟨hc, hb⟩ := h
              subst hc; subst hb
              exact ⟨h1.1.trans ((make_ignore_and_pop_le _ _).trans (BlockLe.append _)), h1.2⟩
            · rw [if_neg hbe] at h
              split at h
              · exact Option.noConfusion h
              · rename_i c2 b2 heqStep
                simp only [Option.some.injEq, Prod.mk.injEq] at h
                obtain ⟨hc, hb⟩ := h
                subst hc; subst hb
                split at heqStep
                · exact Option.noConfusion heqStep
                · rename_i c3 b3 x heqb
                  simp only [Option.some.injEq, Prod.mk.injEq] at heqStep
                  obtain ⟨hc2, hb2⟩ := heqStep
                  subst hc2; subst hb2
                  have h2 := bvib_mono _ _ _ _ _ _ _ _ heqb
                  exact ⟨h1.1.trans (h2.1.trans (BlockLe.append _)), Nat.le_trans h1.2 h2.2⟩
      next asg lty rhs =>
        split at h
        · exact Option.noConfusion h
        · rename_i c1 b1 rv heqv
          have h1 := ihval _ _ _ _ _ _ _ heqv
          cases rv with
          | none =>
            dsimp only at h
            simp only [Option.some.injEq, Prod.mk.injEq] at h
            obtain ⟨hc, hb⟩ := h
            subst hc; subst hb
            exact h1
          | some exp =>
            dsimp only at h
            have hma := make_assignments_mono _ _ _ _ _ _ _ h
            refine ⟨h1.1.trans hma.1, ?_⟩
            rw [hma.2]
            exact h1.2
      next lhs_in rhs_in =>
        split at h
        · exact Option.noConfusion h
        · rename_i c1 b1 rv heq1
          split at h
          · exact Option.noConfusion h
          · rename_i c2 b2 lv heq2
            have h1 := ihval _ _ _ _ _ _ _ heq1
            have h2 := ihval _ _ _ _ _ _ _ heq2
            cases lv <;> cases rv <;> dsimp only at h <;>
              simp only [Option.some.injEq, Prod.mk.injEq] at h <;>
              obtain ⟨hc, hb⟩ := h <;> subst hc <;> subst hb <;>
              first
              | exact ⟨h1.1.trans h2.1, Nat.le_trans h1.2 h2.2⟩
              | exact ⟨h1.1.trans (h2.1.trans (BlockLe.append _)), Nat.le_trans h1.2 h2.2⟩
    · -- tail_block
      intro ctx block expd seq ctx' block' res h
      simp only [tail_block] at h
      split at h
      · exact Option.noConfusion h
      · rename_i c1 b1 heq1
        have h1 := ihsb _ _ _ _ _ _ heq1
        split at h
        · simp only [Option.some.injEq, Prod.mk.injEq] at h
          obtain ⟨hc, hb, -⟩ := h
          subst hc; subst hb
          exact h1
        · split at h
          · split at h
            · split at h
              · simp only [Option.some.injEq, Prod.mk.injEq] at h
                obtain ⟨hc, hb, -⟩ := h
                subst hc; subst hb
                exact ⟨h1.1, h1.2⟩
              · have h2 := ihtail _ _ _ _ _ _ _ h
                exact ⟨h1.1.trans h2.1, Nat.le_trans h1.2 h2.2⟩
            · have h2 := ihtail _ _ _ _ _ _ _ h
              exact ⟨h1.1.trans h2.1, Nat.le_trans h1.2 h2.2⟩
          · have h2 := ihtail _ _ _ _ _ _ _ h
            exact ⟨h1.1.trans h2.1, Nat.le_trans h1.2 h2.2⟩
        all_goals exact Option.noConfusion h
    · -- value_block
      intro ctx block expd seq ctx' block' res h
      simp only [value_block] at h
      split at h
      · exact Option.noConfusion h
      · rename_i c1 b1 heq1
        have h1 := ihsb _ _ _ _ _ _ heq1
        split at h
        · simp only [Option.some.injEq, Prod.mk.injEq] at h
          obtain ⟨hc, hb, -⟩ := h
          subst hc; subst hb
          exact h1
        · have h2 := ihval _ _ _ _ _ _ _ h
          exact ⟨h1.1.trans h2.1, Nat.le_trans h1.2 h2.2⟩
        all_goals exact Option.noConfusion h
    · -- value_list
      intro ctx block ty e ctx' block' res h
      rcases e with ⟨ety, eloc, ue⟩
      cases ue <;> simp only [value_list, TExp.e] at h
      all_goals try
        (split at h <;>
          [exact Option.noConfusion h;
           (rename_i c1 b1 ex heq
            simp only [Option.some.injEq, Prod.mk.injEq] at h
            obtain ⟨hc, hb, -⟩ := h
            subst hc
            subst hb
            exact ihval _ _ _ _ _ _ _ heq)])
      next tr =>
        simp only [Option.some.injEq, Prod.mk.injEq] at h
        obtain ⟨hc, hb, -⟩ := h
        subst hc; subst hb
        exact ⟨BlockLe.rfl, Nat.le_refl _⟩
      next items =>
        split at h
        · exact Option.noConfusion h
        · split at h
          · exact Option.noConfusion h
          · rename_i c1 b1 exprs heq
            simp only [Option.some.injEq, Prod.mk.injEq] at h
            obtain ⟨hc, hb, -⟩ := h
            subst hc; subst hb
            exact ihveo _ _ _ _ _ _ heq
    · -- statement_block
      intro ctx block seq sp ctx' block' h
      simp only [statement_block] at h
      exact ihsbi _ _ _ _ _ _ h
    · -- sb_items
      intro ctx block seq htu ctx' block' h
      cases seq with
      | nil =>
        simp only [sb_items, Option.some.injEq, Prod.mk.injEq] at h
        obtain ⟨hc, hb⟩ := h
        subst hc; subst hb
        exact ⟨BlockLe.rfl, Nat.le_refl _⟩
      | cons item rest =>
        simp only [sb_items] at h
        cases item with
        | seq last =>
          dsimp only at h
          split at h
          · exact Option.noConfusion h
          · rename_i c1 b1 heqStep
            have hrest := ihsbi _ _ _ _ _ _ h
            have hstep : BlockLe block b1 ∧ ctx.tmp_counter ≤ c1.tmp_counter := by
              split at heqStep
              · split at heqStep
                · split at heqStep
                  · simp only [Option.some.injEq, Prod.mk.injEq] at heqStep
                    obtain ⟨hc, hb⟩ := heqStep
                    subst hc; subst hb
                    exact ⟨BlockLe.rfl, Nat.le_refl _⟩
                  · exact ihstmt _ _ _ _ _ heqStep
                · exact ihstmt _ _ _ _ _ heqStep
              · exact ihstmt _ _ _ _ _ heqStep
            exact ⟨hstep.1.trans hrest.1, Nat.le_trans hstep.2 hrest.2⟩
        | declare bindings =>
          dsimp only at h
          have hrest := ihsbi _ _ _ _ _ _ h
          exact ⟨hrest.1,
            Nat.le_trans (Nat.le_of_eq (declare_bind_list_counter ctx bindings).symm) hrest.2⟩
        | bind sloc bindings tys expr =>
          dsimp only at h
          split at h
          · exact Option.noConfusion h
          · rename_i c1 b1 heqStep
            have hrest := ihsbi _ _ _ _ _ _ h
            have hstep : BlockLe block b1 ∧ ctx.tmp_counter ≤ c1.tmp_counter := by
              split at heqStep
              · exact Option.noConfusion heqStep
              · rename_i c2 b2 rhs heqv
                have hv := ihval _ _ _ _ _ _ _ heqv
                cases rhs with
                | none =>
                  dsimp only at heqStep
                  simp only [Option.some.injEq, Prod.mk.injEq] at heqStep
                  obtain ⟨hc, hb⟩ := heqStep
                  subst hc; subst hb
                  exact hv
                | some rhs =>
                  dsimp only at heqStep
                  have hma := make_assignments_mono _ _ _ _ _ _ _ heqStep
                  refine ⟨hv.1.trans hma.1, Nat.le_trans hv.2 (Nat.le_of_eq ?_)⟩
                  rw [hma.2]
                  exact (declare_bind_list_counter c2 bindings).symm
            exact ⟨hstep.1.trans hrest.1, Nat.le_trans hstep.2 hrest.2⟩
    · -- value_statement
      intro ctx block e ctx' block' h
      simp only [value_statement] at h
      split at h
      · exact Option.noConfusion h
      · rename_i c1 b1 ex heq
        have h1 := ihval _ _ _ _ _ _ _ heq
        simp only [Option.some.injEq, Prod.mk.injEq] at h
        obtain ⟨hc, hb⟩ := h
        subst hc; subst hb
        exact ⟨h1.1.trans (make_ignore_and_pop_le _ _), h1.2⟩
    · -- process_loop_body
      intro ctx e ctx' b h
      simp only [process_loop_body] at h
      exact (ihstmt _ _ _ _ _ h).2
    · -- value_evaluation_order
      intro ctx block l ctx' block' vals h
      simp only [value_evaluation_order] at h
      split at h
      · exact Option.noConfusion h
      · rename_i c1 stmts vs heq
        have h1 := ihvei _ _ _ _ _ _ _ _ heq
        simp only [Option.some.injEq, Prod.mk.injEq] at h
        obtain ⟨hc, hb, -⟩ := h
        subst hc; subst hb
        exact ⟨BlockLe.append _, h1⟩
    · -- veo_items
      intro ctx l nb stmts vals ctx' stmts' vals' h
      rcases l with _ | ⟨⟨exp, ety⟩, rest⟩
      · simp only [veo_items, Option.some.injEq, Prod.mk.injEq] at h
        obtain ⟨hc, -⟩ := h
        subst hc
        exact Nat.le_refl _
      · simp only [veo_items] at h
        split at h
        · exact Option.noConfusion h
        · rename_i c1 ns ev heqv
          by_cases hnb : nb = true
          · rw [if_pos hnb] at h
            split at h
            · exact Option.noConfusion h
            · rename_i c2 ns2 e2 heqb
              have hrest := ihvei _ _ _ _ _ _ _ _ h
              exact Nat.le_trans (ihval _ _ _ _ _ _ _ heqv).2
                (Nat.le_trans (mbe_mono _ _ _ _ _ _ heqb).2 hrest)
          · rw [if_neg hnb] at h
            dsimp only at h
            have hrest := ihvei _ _ _ _ _ _ _ _ h
            exact Nat.le_trans (ihval _ _ _ _ _ _ _ heqv).2 hrest
    · -- exp_list_values
      intro ctx block items ctx' block' vs h
      rcases items with _ | ⟨⟨entry, ts⟩, rest⟩
      · simp only [exp_list_values, Option.some.injEq, Prod.mk.injEq] at h
        obtain ⟨hc, hb, -⟩ := h
        subst hc; subst hb
        exact ⟨BlockLe.rfl, Nat.le_refl _⟩
      · simp only [exp_list_values] at h
        split at h
        · exact Option.noConfusion h
        · rename_i c1 b1 nv heqv
          cases nv with
          | none =>
            try dsimp only at h
            exact Option.noConfusion h
          | some v =>
            dsimp only at h
            split at h
            · exact Option.noConfusion h
            · rename_i c2 b2 vs2 heqr
              simp only [Option.some.injEq, Prod.mk.injEq] at h
              obtain ⟨hc, hb, -⟩ := h
              subst hc; subst hb
              have h1 := ihval _ _ _ _ _ _ _ heqv
              have h2 := ihelv _ _ _ _ _ _ heqr
              exact ⟨h1.1.trans h2.1, Nat.le_trans h1.2 h2.2⟩
    · -- pack_reorder_fields
      intro ctx block tfs fields ctx' block' fields' h
      rcases tfs with _ | ⟨⟨di, f, ei, bt, tf⟩, rest⟩
      · simp only [pack_reorder_fields, Option.some.injEq, Prod.mk.injEq] at h
        obtain ⟨hc, hb, -⟩ := h
        subst hc; subst hb
        exact ⟨BlockLe.rfl, Nat.le_refl _⟩
      · simp only [pack_reorder_fields] at h
        split at h
        · simp only [Option.some.injEq, Prod.mk.injEq] at h
          obtain ⟨hc, hb, -⟩ := h
          subst hc; subst hb
          exact ⟨BlockLe.rfl, Nat.le_refl _⟩
        · split at h
          · exact Option.noConfusion h
          · rename_i c1 b1 fexp heqv
            split at h
            · cases fexp with
              | none =>
                try dsimp only at h
                exact Option.noConfusion h
              | some fev =>
                dsimp only at h
                split at h
                · exact Option.noConfusion h
                · rename_i c2 b2 mv heqb
                  have hrest := ihprf _ _ _ _ _ _ _ h
                  have h1 := ihval _ _ _ _ _ _ _ heqv
                  have h2 := be_mono _ _ _ _ _ _ heqb
                  exact ⟨h1.1.trans (h2.1.trans hrest.1),
                    Nat.le_trans h1.2 (Nat.le_trans h2.2 hrest.2)⟩
            all_goals exact Option.noConfusion h

theorem veo_items_eq_spec : ∀ (l : List (TExp × Option HType)) (fuel : Nat) (ctx : Context)
    (nb : Bool) (stmts : List Block) (vals : List HExp),
    veo_items fuel ctx l nb stmts vals =
      match veo_spec_items fuel ctx l nb with
      | none => none
      | some (ctx', pairs) =>
        some (ctx', stmts ++ pairs.map (fun p => p.1), vals ++ pairs.map (fun p => p.2)) := by
  intro l
  induction l with
  | nil =>
    intro fuel ctx nb stmts vals
    cases fuel <;> simp [veo_items, veo_spec_items]
  | cons head rest ih =>
    obtain ⟨exp, ety⟩ := head
    intro fuel ctx nb stmts vals
    cases fuel with
    | zero => rfl
    | succ fuel =>
      simp only [veo_items, veo_spec_items]
      cases hv : value fuel ctx [] ety exp with
      | none => rfl
      | some r =>
        obtain ⟨ctx1, new_stmts, exp_v⟩ := r
        dsimp only
        cases hb : (if nb = true then maybe_bind_exp fuel ctx1 new_stmts exp_v
            else some (ctx1, new_stmts, exp_v)) with
        | none => rfl
        | some r2 =>
          obtain ⟨ctx2, stmts2, res2⟩ := r2
          dsimp only
          have hflag : (nb || !stmts2.isEmpty) = (nb || !new_stmts.isEmpty) := by
            cases nb with
            | true => rfl
            | false =>
              simp only [Bool.false_eq_true, if_false] at hb
              injection hb with hb'
              rw [Prod.mk.injEq, Prod.mk.injEq] at hb'
              rw [hb'.2.1]
          rw [ih, hflag]
          cases hs : veo_spec_items fuel ctx2 rest (nb || !new_stmts.isEmpty) with
          | none => rfl
          | some r3 =>
            obtain ⟨ctx', pairs⟩ := r3
            cases res2 <;> simp [Option.getD]

/-- Claim C1 (corrected, amended form proved): `value_evaluation_order`
coincides with the specification function `value_evaluation_order_spec`: the
pairs are processed in reverse, each expression lowered in value position into
its own fresh block; the result is passed through `maybe_bind_exp` (which
binds to a fresh temporary only a present result of non-unit type, discards a
present unit-typed result via ignore-and-pop replacing it with an implicit
unit, and leaves an absent result absent) iff the lowering of some
later-in-source expression emitted at least one statement; the per-expression
blocks are appended in original source order and the expressions are returned
in original source order. -/
theorem value_evaluation_order_refines_spec (fuel : Nat) (ctx : Context) (block : Block)
    (l : List (TExp × Option HType)) :
    value_evaluation_order fuel ctx block l = value_evaluation_order_spec fuel ctx block l := by
  cases fuel with
  | zero => rfl
  | succ fuel =>
    simp only [value_evaluation_order, value_evaluation_order_spec]
    rw [veo_items_eq_spec]
    cases hs : veo_spec_items fuel ctx l.reverse false with
    | none => rfl
    | some r =>
      obtain ⟨ctx', pairs⟩ := r
      dsimp only
      simp [List.map_reverse]

/-- Claim C1, counterexample to the claim as stated: in
`[(c1first, none), (c1later, none)]` the later expression's lowering emits one
statement (the assert's `IfElse`), so the claim requires the first
expression's result to be bound to a fresh temporary; but the first expression
is unit-typed, so `maybe_bind_exp` has no binders: no temporary is created
anywhere (the final context is unchanged, `tmp_counter` still `0`), no
`Assign` is emitted (the output block is exactly the one `IfElse` statement),
and the first returned expression is an implicit unit. -/
theorem value_evaluation_order_unit_not_bound_counterexample :
    value 8 ctx0 [] none c1later = some (ctx0, [c1stmt], some (unit_exp 2)) ∧
    value_evaluation_order 9 ctx0 [] [(c1first, none), (c1later, none)] =
      some (ctx0, [c1stmt], [unit_exp 1, unit_exp 2]) ∧
    ctx0.tmp_counter = 0 ∧
    (∀ l c, c1stmt ≠ .command l c) :=
  ⟨rfl, rfl, rfl, fun _ _ h => Statement.noConfusion h⟩

/-! ## Unfolding helpers for the position-indexed lowering -/

theorem needs_freeze_unit_left (t : HType) : needs_freeze .unit t = .notNeeded := by
  cases t <;> rfl

theorem maybe_freeze_unit_exp (fuel : Nat) (ctx : Context) (block : Block)
    (expd : Option HType) (loc : Nat) :
    maybe_freeze (fuel + 2) ctx block expd (some (unit_exp loc)) =
      some (ctx, block, some (unit_exp loc)) := by
  cases expd with
  | none => rfl
  | some t =>
    simp [maybe_freeze, freeze, unit_exp, HExp.is_unreachable, HExp.e, HExp.ty,
      needs_freeze_unit_left]

/-! ## Claim C6: statement-only expressions in value and tail position -/

/-- Claim C6 (confirmed): statement-only expressions (`Return`, `Abort`,
`Give`, `Continue`, `Assign`, `Mutate`) are delegated to `statement` from both
value and tail position; the result is a synthetic implicit unit for `Assign`
and `Mutate` and `None` otherwise, and only value position emits the
`UnusedItem::DeadCode` diagnostic (at the expression's location) in the `None`
cases. -/
theorem statement_only_dispatch (fuel : Nat) (ctx : Context) (block : Block)
    (expd : Option HType) (e : TExp) (h : is_statement e = true) :
    (value (fuel + 1) ctx block expd e =
      match statement fuel (if is_unit_statement e then ctx else emit_unreachable ctx e.loc)
          block e with
      | none => none
      | some (ctx', block') =>
        some (ctx', block', if is_unit_statement e then some (unit_exp e.loc) else none)) ∧
    (tail (fuel + 1) ctx block expd e =
      match statement fuel ctx block e with
      | none => none
      | some (ctx', block') =>
        some (ctx', block', if is_unit_statement e then some (unit_exp e.loc) else none)) := by
  constructor
  · simp only [value, h, if_true]
    by_cases hu : is_unit_statement e = true
    · simp only [hu, if_true]
    · simp only [if_neg hu]
  · simp only [tail, h, if_true]

/-- Witness for C6 at `return ()`. -/
theorem statement_only_dispatch_witness :
    is_statement c6e = true ∧
    (value 4 ctx0 [] none c6e =
      match statement 3 (if is_unit_statement c6e then ctx0 else emit_unreachable ctx0 c6e.loc)
          [] c6e with
      | none => none
      | some (ctx', block') =>
        some (ctx', block', if is_unit_statement c6e then some (unit_exp c6e.loc) else none)) ∧
    (tail 4 ctx0 [] none c6e =
      match statement 3 ctx0 [] c6e with
      | none => none
      | some (ctx', block') =>
        some (ctx', block', if is_unit_statement c6e then some (unit_exp c6e.loc) else none)) :=
  ⟨rfl, (statement_only_dispatch 3 ctx0 [] none c6e rfl).1,
    (statement_only_dispatch 3 ctx0 [] none c6e rfl).2⟩

/-! ## Claim C8: unit results of `while` and `loop` lowering -/

/-- Claim C8 (confirmed): in tail position a `while` yields a `Trailing` unit,
a `loop` with `has_break` and empty binders (unit type) yields a `Trailing`
unit (not `Implicit`), and in value position a `while` yields an `Implicit`
unit. -/
theorem while_loop_unit_cases (fuel : Nat) (ctx : Context) (block : Block)
    (expd : Option HType) (name : NVar) (test body : TExp) (ty : HType) (loc : Nat) :
    (tail (fuel + 1) ctx block expd (.mk ty loc (.whileE name test body)) =
      match statement fuel ctx block (.mk ty loc (.whileE name test body)) with
      | none => none
      | some (ctx', block') => some (ctx', block', some (trailing_unit_exp loc))) ∧
    (tail (fuel + 1) ctx block expd (.mk .unit loc (.loop name true body)) =
      match process_loop_body fuel
          ((ctx.record_named_block_binders (translate_var name) []).record_named_block_type
            (translate_var name) .unit) body with
      | none => none
      | some (ctx', loop_block) =>
        some (ctx', block ++ [.loopS loc (translate_var name) true loop_block],
          some (trailing_unit_exp loc))) ∧
    (value (fuel + 3) ctx block expd (.mk ty loc (.whileE name test body)) =
      match statement (fuel + 2) ctx block (.mk ty loc (.whileE name test body)) with
      | none => none
      | some (ctx', block') => some (ctx', block', some (unit_exp loc))) := by
  refine ⟨?_, ?_, ?_⟩
  · simp only [tail, is_statement, TExp.e, TExp.ty, TExp.loc]
    cases hst : statement fuel ctx block (.mk ty loc (.whileE name test body)) <;> simp [hst]
  · simp only [tail, is_statement, TExp.e, TExp.ty, TExp.loc, make_binders, List.isEmpty]
    cases hpl : process_loop_body fuel
        ((ctx.record_named_block_binders (translate_var name) []).record_named_block_type
          (translate_var name) .unit) body with
    | none => simp [hpl]
    | some r => cases r with
      | mk ctx' loop_block => simp [hpl]
  · simp only [value, is_statement, TExp.e, TExp.ty, TExp.loc]
    cases hst : statement (fuel + 2) ctx block (.mk ty loc (.whileE name test body)) with
    | none => simp [hst]
    | some r =>
      cases r with
      | mk ctx' block' => simp [hst, maybe_freeze_unit_exp]

/-! ## Claim C5: assert desugaring -/

theorem value_assert_false_unfold (fuel : Nat) (ctx : Context) (block : Block)
    (expd : Option HType) (ty aty : HType) (loc aloc : Nat) (econd ecode : TExp)
    (tcond tcode : SingleType) :
    value (fuel + 1) ctx block expd
        (.mk ty loc (.builtinAssert false
          (.mk aty aloc (.expList [(econd, tcond), (ecode, tcode)])))) =
      match (match value fuel ctx block (some tbool) econd with
        | none => none
        | some (ctx, block, cond_value) =>
          match value fuel ctx block none ecode with
          | none => none
          | some (ctx, block, code_value) =>
            match cond_value, code_value with
            | some cond, some code =>
              some (ctx,
                block ++ [Statement.ifElse loc cond [] [make_command loc (.abort code)]],
                some (unit_exp loc))
            | _, _ => some (ctx, block, some (unit_exp loc))) with
      | none => none
      | some (ctx, block, preresult) => maybe_freeze fuel ctx block expd preresult := rfl

theorem value_assert_true_unfold (fuel : Nat) (ctx : Context) (block : Block)
    (expd : Option HType) (ty aty : HType) (loc aloc : Nat) (econd ecode : TExp)
    (tcond tcode : SingleType) :
    value (fuel + 1) ctx block expd
        (.mk ty loc (.builtinAssert true
          (.mk aty aloc (.expList [(econd, tcond), (ecode, tcode)])))) =
      match (match value fuel ctx block (some tbool) econd with
        | none => none
        | some (ctx, block, cond_value) =>
          match value fuel ctx [] none ecode with
          | none => none
          | some (ctx, else_block, code_value) =>
            match cond_value, code_value with
            | some cond, some code =>
              some (ctx,
                block ++ [Statement.ifElse loc cond []
                  (else_block ++ [make_command loc (.abort code)])],
                some (unit_exp loc))
            | _, _ => some (ctx, block, some (unit_exp loc))) with
      | none => none
      | some (ctx, block, preresult) => maybe_freeze fuel ctx block expd preresult := rfl

/-- Claim C5 (confirmed): both assert variants lower the condition in value
position with expected type `bool` and the code argument in value position
with no expected type, emit an `IfElse` whose if-block is empty and whose
else-block ends with `Abort(code)`, and yield an implicit unit.  The
bool-first variant (`Assert(false)`) lowers the code into the enclosing block
before the `IfElse`; the abort-on-false variant (`Assert(true)`) lowers it
into the else-block, evaluated only on the false path. -/
theorem assert_lowering (fuel : Nat) (ctx : Context) (block : Block) (expd : Option HType)
    (ty aty : HType) (loc aloc : Nat) (econd ecode : TExp) (tcond tcode : SingleType) :
    (value (fuel + 3) ctx block expd
        (.mk ty loc (.builtinAssert false
          (.mk aty aloc (.expList [(econd, tcond), (ecode, tcode)])))) =
      match value (fuel + 2) ctx block (some tbool) econd with
      | none => none
      | some (ctx1, block1, cond_value) =>
        match value (fuel + 2) ctx1 block1 none ecode with
        | none => none
        | some (ctx2, block2, code_value) =>
          match cond_value, code_value with
          | some cond, some code =>
            some (ctx2, block2 ++ [.ifElse loc cond [] [make_command loc (.abort code)]],
              some (unit_exp loc))
          | _, _ => some (ctx2, block2, some (unit_exp loc))) ∧
    (value (fuel + 3) ctx block expd
        (.mk ty loc (.builtinAssert true
          (.mk aty aloc (.expList [(econd, tcond), (ecode, tcode)])))) =
      match value (fuel + 2) ctx block (some tbool) econd with
      | none => none
      | some (ctx1, block1, cond_value) =>
        match value (fuel + 2) ctx1 [] none ecode with
        | none => none
        | some (ctx2, else_block, code_value) =>
          match cond_value, code_value with
          | some cond, some code =>
            some (ctx2,
              block1 ++ [.ifElse loc cond [] (else_block ++ [make_command loc (.abort code)])],
              some (unit_exp loc))
          | _, _ => some (ctx2, block1, some (unit_exp loc))) := by
  constructor
  · rw [value_assert_false_unfold (fuel + 2)]
    cases hv1 : value (fuel + 2) ctx block (some tbool) econd with
    | none => rfl
    | some r1 =>
      obtain ⟨ctx1, block1, cond_value⟩ := r1
      dsimp only
      cases hv2 : value (fuel + 2) ctx1 block1 none ecode with
      | none => rfl
      | some r2 =>
        obtain ⟨ctx2, block2, code_value⟩ := r2
        dsimp only
        cases cond_value <;> cases code_value <;>
          simp only [maybe_freeze_unit_exp]
  · rw [value_assert_true_unfold (fuel + 2)]
    cases hv1 : value (fuel + 2) ctx block (some tbool) econd with
    | none => rfl
    | some r1 =>
      obtain ⟨ctx1, block1, cond_value⟩ := r1
      dsimp only
      cases hv2 : value (fuel + 2) ctx1 [] none ecode with
      | none => rfl
      | some r2 =>
        obtain ⟨ctx2, else_block, code_value⟩ := r2
        dsimp only
        cases cond_value <;> cases code_value <;>
          simp only [maybe_freeze_unit_exp]

/-! ## Claim C7: the trailing-semicolon policy -/

theorem trailing_unit_concat (front : List TSeqItem) (uty : HType) (uloc : Nat) :
    trailing_unit (front ++ [.seq (.mk uty uloc (.unit true))]) = true := by
  simp [trailing_unit, List.getLast?_concat, TExp.e]

/-- Claim C7 (confirmed): when a sequence's last item is a unit expression
with the trailing-semicolon flag and the statement most recently emitted into
the block is divergent, exactly one `UnusedItem::TrailingSemi` diagnostic is
emitted, carrying three labels — "Invalid trailing ';'" at the semicolon
location, "Any code after this expression will not be reached" at the
divergent statement's location, and an info label at the semicolon location
(see `emit_trailing_semicolon_error`) — and the trailing unit is not lowered:
nothing is appended to the block.  First conjunct: tail position
(`tail_block`); second: the final item of the statement-position loop
(`sb_items`); third: `statement_block` only enables the policy in statement
position (`stmt_pos && trailing_unit`). -/
theorem trailing_semicolon_policy :
    (∀ (fuel : Nat) (ctx : Context) (block : Block) (expd : Option HType)
        (front : List TSeqItem) (uty : HType) (uloc : Nat) (ctx1 : Context)
        (block1 : Block) (st : Statement),
      statement_block fuel ctx block front false = some (ctx1, block1) →
      block1.getLast? = some st →
      divergent st = true →
      tail_block (fuel + 1) ctx block expd (front ++ [.seq (.mk uty uloc (.unit true))]) =
        some (emit_trailing_semicolon_error ctx1 st.loc uloc, block1, none)) ∧
    (∀ (fuel : Nat) (ctx : Context) (block : Block) (uty : HType) (uloc : Nat)
        (st : Statement),
      block.getLast? = some st →
      divergent st = true →
      sb_items (fuel + 2) ctx block [.seq (.mk uty uloc (.unit true))] true =
        some (emit_trailing_semicolon_error ctx st.loc uloc, block)) ∧
    (∀ (fuel : Nat) (ctx : Context) (block : Block) (seq : List TSeqItem) (stmt_pos : Bool),
      statement_block (fuel + 1) ctx block seq stmt_pos =
        sb_items fuel ctx block seq (stmt_pos && trailing_unit seq)) := by
  refine ⟨?_, ?_, ?_⟩
  · intro fuel ctx block expd front uty uloc ctx1 block1 st hsb hlast hdiv
    simp only [tail_block, trailing_unit_concat, List.dropLast_concat, List.getLast?_concat, hsb]
    simp [hlast, hdiv, TExp.loc]
  · intro fuel ctx block uty uloc st hlast hdiv
    simp only [sb_items, List.isEmpty]
    simp [hlast, hdiv, TExp.loc, sb_items]
  · intro fuel ctx block seq stmt_pos
    rfl

/-- Witness for C7: after a lowered `return`, the trailing unit triggers the
three-label diagnostic and nothing further is emitted. -/
theorem trailing_semicolon_policy_witness :
    statement_block 5 ctx0 [] [TSeqItem.seq c7ret] false = some (ctx0, [c7cmd]) ∧
    divergent c7cmd = true ∧
    tail_block 6 ctx0 [] none [TSeqItem.seq c7ret, TSeqItem.seq (.mk .unit 22 (.unit true))] =
      some (emit_trailing_semicolon_error ctx0 20 22, [c7cmd], none) := by
  refine ⟨by rfl, by rfl, ?_⟩
  have h := trailing_semicolon_policy.1 5 ctx0 [] none [TSeqItem.seq c7ret] .unit 22 ctx0
    [c7cmd] c7cmd (by rfl) (by rfl) (by rfl)
  simpa using h

/-! ## Claim C10: `while` in statement position with a diverging condition -/

/-- Claim C10 (confirmed): lowering a `while` in statement position first
registers empty binders and result type unit for the loop's name, then lowers
the condition; if the condition lowers to no expression, no `While` statement
is emitted — the condition's statements are appended to the enclosing block
and the lowered body block is discarded (its context effects remain). -/
theorem while_divergent_cond_lowering (fuel : Nat) (ctx : Context) (block : Block)
    (name : NVar) (test body : TExp) (ty : HType) (loc : Nat)
    (ctx1 ctx2 : Context) (cond_block body_block : Block)
    (hcond : value fuel
        ((ctx.record_named_block_binders (translate_var name) []).record_named_block_type
          (translate_var name) .unit) [] (some tbool) test = some (ctx1, cond_block, none))
    (hbody : statement fuel ctx1 [] body = some (ctx2, body_block)) :
    statement (fuel + 1) ctx block (.mk ty loc (.whileE name test body)) =
      some (ctx2, block ++ cond_block) := by
  simp only [statement, TExp.e, TExp.ty, TExp.loc, hcond, hbody]

/-- Witness for C10: the condition `return ()` diverges; the `Return` command
is appended to the enclosing block and no `While` statement is emitted. -/
theorem while_divergent_cond_lowering_witness :
    (value 5 c10ctxR [] (some tbool) c10test =
      some (emit_unreachable c10ctxR 10,
        [.command 10 (.ret true (.mk .unit 11 (.unit .fromUser)))], none)) ∧
    statement 6 ctx0 [] (.mk .unit 13 (.whileE ⟨['l'], 0, 0⟩ c10test c10body)) =
      some (emit_unreachable c10ctxR 10,
        [.command 10 (.ret true (.mk .unit 11 (.unit .fromUser)))]) := by
  refine ⟨by rfl, ?_⟩
  have h := while_divergent_cond_lowering 5 ctx0 [] ⟨['l'], 0, 0⟩ c10test c10body .unit 13
    (emit_unreachable c10ctxR 10) (emit_unreachable c10ctxR 10)
    [.command 10 (.ret true (.mk .unit 11 (.unit .fromUser)))] []
    (by rfl) (by rfl)
  simpa using h

/-! ## Claim C4: reordered struct pack -/

theorem needs_freeze_single_refl (st : SingleType) : needs_freeze_single st st = false := by
  cases st with
  | base b => rfl
  | ref mut_ b => cases mut_ <;> rfl

theorem bind_exp_shape (F : Nat) (ctx : Context) (stmts : Block) (e : HExp)
    (st : SingleType) (hty : e.ty = .single st) (hur : e.is_unreachable = false)
    (ctx' : Context) (stmts' : Block) (mv : HExp)
    (h : bind_exp F ctx stmts e = some (ctx', stmts', mv)) :
    ctx'.tmp_counter = ctx.tmp_counter + 1 ∧
    stmts' = stmts ++
      [.command e.loc (.assign [.var (tempSym (ctx.tmp_counter + 1)) st] e)] ∧
    mv = .mk (.single st) e.loc (.move .inferredLastUsage (tempSym (ctx.tmp_counter + 1))) := by
  rcases e with ⟨ety, eloc, ue⟩
  simp only [HExp.ty] at hty
  subst hty
  match F with
  | 0 => exact Option.noConfusion h
  | f + 1 =>
    simp only [bind_exp, HExp.ty, HExp.loc, make_binders, make_temp, Context.new_temp,
      new_temp_name, Context.counter_next] at h
    match f with
    | 0 => exact Option.noConfusion h
    | g + 1 =>
      simp only [bind_value_in_block, List.any_cons, List.any_nil, Bool.or_false,
        Bool.false_eq_true, if_false] at h
      match g with
      | 0 => exact Option.noConfusion h
      | k + 1 =>
        simp only [maybe_freeze] at h
        rw [if_neg (by simp only [hur]; exact Bool.false_ne_true)] at h
        match k with
        | 0 => exact Option.noConfusion h
        | j + 1 =>
          simp only [freeze, HExp.ty, needs_freeze, needs_freeze_single_refl,
            Bool.false_eq_true, if_false] at h
          simp only [Option.some.injEq, Prod.mk.injEq] at h
          obtain ⟨hc, hb, hm⟩ := h
          subst hc
          refine ⟨rfl, ?_, ?_⟩
          · rw [← hb]
            simp [HExp.loc, tempSym]
          · rw [← hm]
            simp [HExp.loc, tempSym]

theorem insert_by_key_perm {α : Type} (key : α → Nat) (x : α) :
    ∀ l : List α, (insert_by_key key x l).Perm (x :: l) := by
  intro l
  induction l with
  | nil => exact List.Perm.refl _
  | cons y ys ih =>
    simp only [insert_by_key]
    by_cases hlt : key x < key y
    · rw [if_pos hlt]
    · rw [if_neg hlt]
      exact List.Perm.trans (List.Perm.cons y ih) (List.Perm.swap x y ys)

theorem insert_by_key_sorted {α : Type} (key : α → Nat) (x : α) :
    ∀ l : List α, List.Pairwise (fun a b => key a ≤ key b) l →
      List.Pairwise (fun a b => key a ≤ key b) (insert_by_key key x l) := by
  intro l
  induction l with
  | nil => exact fun _ => List.pairwise_singleton _ _
  | cons y ys ih =>
    intro hp
    obtain ⟨hy, hys⟩ := List.pairwise_cons.mp hp
    simp only [insert_by_key]
    by_cases hlt : key x < key y
    · rw [if_pos hlt]
      refine List.pairwise_cons.mpr ⟨?_, hp⟩
      intro b hb
      rcases List.mem_cons.mp hb with hb | hb
      · exact hb ▸ Nat.le_of_lt hlt
      · exact Nat.le_trans (Nat.le_of_lt hlt) (hy b hb)
    · rw [if_neg hlt]
      refine List.pairwise_cons.mpr ⟨?_, ih hys⟩
      intro b hb
      have hb2 := (insert_by_key_perm key x ys).mem_iff.mp hb
      rcases List.mem_cons.mp hb2 with hb2 | hb2
      · exact hb2 ▸ Nat.le_of_not_lt hlt
      · exact hy b hb2

theorem sort_by_key_foldl_perm {α : Type} (key : α → Nat) :
    ∀ (l acc : List α),
      (l.foldl (fun acc x => insert_by_key key x acc) acc).Perm (acc ++ l) := by
  intro l
  induction l with
  | nil => intro acc; simp
  | cons x xs ih =>
    intro acc
    simp only [List.foldl_cons]
    refine List.Perm.trans (ih (insert_by_key key x acc)) ?_
    refine List.Perm.trans (List.Perm.append_right xs (insert_by_key_perm key x acc)) ?_
    exact List.perm_middle.symm

theorem sort_by_key_perm {α : Type} (key : α → Nat) (l : List α) :
    (sort_by_key key l).Perm l := by
  simpa using sort_by_key_foldl_perm key l []

theorem sort_by_key_foldl_sorted {α : Type} (key : α → Nat) :
    ∀ (l acc : List α), List.Pairwise (fun a b => key a ≤ key b) acc →
      List.Pairwise (fun a b => key a ≤ key b)
        (l.foldl (fun acc x => insert_by_key key x acc) acc) := by
  intro l
  induction l with
  | nil => exact fun acc h => h
  | cons x xs ih =>
    intro acc hacc
    simp only [List.foldl_cons]
    exact ih _ (insert_by_key_sorted key x acc hacc)

theorem sort_by_key_sorted {α : Type} (key : α → Nat) (l : List α) :
    List.Pairwise (fun a b => key a ≤ key b) (sort_by_key key l) :=
  sort_by_key_foldl_sorted key l [] List.Pairwise.nil

theorem pack_reorder_fields_run :
    ∀ (tfs : List (Nat × Symbol × Nat × BaseType × TExp)) (fuel : Nat) (ctx : Context)
      (block : Block) (fields : List (Option (Symbol × BaseType × HExp)))
      (ctx' : Context) (block' : Block) (fields' : List (Option (Symbol × BaseType × HExp))),
      pack_reorder_fields fuel ctx block tfs fields = some (ctx', block', fields') →
      (∀ e ∈ tfs, e.1 < fields.length ∧ fields.get? e.1 = some none) →
      List.Pairwise (fun a b => a.1 ≠ b.1) tfs →
      (∀ e ∈ tfs, ∀ fl c b c2 b2 res,
        value fl c b (some (.single (.base e.2.2.2.1))) e.2.2.2.2 = some (c2, b2, res) →
        ∃ ex, res = some ex ∧ ex.ty = .single (.base e.2.2.2.1) ∧
          ex.is_unreachable = false) →
      fields'.length = fields.length ∧
      (∀ j, (∀ e ∈ tfs, e.1 ≠ j) → fields'.get? j = fields.get? j) ∧
      ∃ segs : List (Block × Nat × HExp),
        List.Chain' (fun a b => a.2.1 < b.2.1) segs ∧
        (∀ s ∈ segs, ctx.tmp_counter < s.2.1 ∧ s.2.1 ≤ ctx'.tmp_counter) ∧
        block' = block ++ (segs.map (fun s => s.1)).flatten ∧
        List.Forall₂ (PackSegSpec fields') tfs segs := by
  intro tfs
  induction tfs with
  | nil =>
    intro fuel ctx block fields ctx' block' fields' h hins hnd hty
    match fuel with
    | 0 => exact Option.noConfusion h
    | F + 1 =>
      simp only [pack_reorder_fields, Option.some.injEq, Prod.mk.injEq] at h
      obtain ⟨hc, hb, hf⟩ := h
      subst hc; subst hb; subst hf
      exact ⟨rfl, fun j _ => rfl,
        [], List.chain'_nil, fun s hs => absurd hs (List.not_mem_nil s),
        by simp, List.Forall₂.nil⟩
  | cons hd rest ih =>
    intro fuel ctx block fields ctx' block' fields' h hins hnd hty
    obtain ⟨di, f, ei, bt, te⟩ := hd
    match fuel with
    | 0 => exact Option.noConfusion h
    | F + 1 =>
      simp only [pack_reorder_fields] at h
      have hdi := hins (di, f, ei, bt, te) (List.mem_cons_self _ _)
      rw [if_neg (Nat.not_le.mpr hdi.1)] at h
      split at h
      · exact Option.noConfusion h
      · rename_i cv bv res heqv
        obtain ⟨ev, hres, hevty, hevur⟩ :=
          hty _ (List.mem_cons_self _ _) _ _ _ _ _ _ heqv
        subst hres
        rw [hdi.2] at h
        dsimp only at h
        split at h
        · exact Option.noConfusion h
        · rename_i cb bb mv heqb
          obtain ⟨hcnt, hbb, hmv⟩ :=
            bind_exp_shape _ _ _ _ _ hevty hevur _ _ _ heqb
          have hmono := ((lowering_monotone F).1 _ _ _ _ _ _ _ heqv)
          obtain ⟨vst, hbv⟩ := hmono.1
          have hpc := List.pairwise_cons.mp hnd
          have hinsR : ∀ e ∈ rest,
              e.1 < (fields.set di (some (f, bt, mv))).length ∧
              (fields.set di (some (f, bt, mv))).get? e.1 = some none := by
            intro e he
            have h1 := hins e (List.mem_cons_of_mem _ he)
            refine ⟨by simpa [List.length_set] using h1.1, ?_⟩
            rw [List.get?_set_ne _ _ (hpc.1 e he)]
            exact h1.2
          have IH := ih F cb bb _ ctx' block' fields' h hinsR hpc.2
            (fun e he => hty e (List.mem_cons_of_mem _ he))
          obtain ⟨hlen, huntouched, segs, hchain, hbounds, hblk, hfa⟩ := IH
          have hprfmono :=
            (lowering_monotone F).2.2.2.2.2.2.2.2.2.2.2.2.2 _ _ _ _ _ _ _ h
          have hctxcb : ctx.tmp_counter ≤ cb.tmp_counter := by
            rw [hcnt]
            exact Nat.le_succ_of_le hmono.2
          refine ⟨hlen.trans (List.length_set _ _ _), ?_,
            (vst ++ [.command ev.loc
                (.assign [.var (tempSym (cv.tmp_counter + 1)) (.base bt)] ev)],
              cv.tmp_counter + 1, ev) :: segs, ?_, ?_, ?_, ?_⟩
          · intro j hj
            have hjr : ∀ e ∈ rest, e.1 ≠ j :=
              fun e he => hj e (List.mem_cons_of_mem _ he)
            rw [huntouched j hjr]
            exact List.get?_set_ne _ _ (hj (di, f, ei, bt, te) (List.mem_cons_self _ _))
          · rw [List.chain'_cons']
            refine ⟨?_, hchain⟩
            intro y hy
            have hys : y ∈ segs := by
              cases segs with
              | nil => exact absurd hy (by simp)
              | cons a l =>
                simp only [List.head?_cons, Option.mem_def, Option.some.injEq] at hy
                exact hy ▸ List.mem_cons_self a l
            have := (hbounds y hys).1
            rw [hcnt] at this
            exact this
          · intro s hs
            rcases List.mem_cons.mp hs with hs | hs
            · subst hs
              refine ⟨Nat.lt_succ_of_le hmono.2, ?_⟩
              have := hprfmono.2
              rw [hcnt] at this
              exact this
            · have hb := hbounds s hs
              exact ⟨Nat.lt_of_le_of_lt hctxcb hb.1, hb.2⟩
          · rw [hblk, hbb, hbv]
            simp [List.append_assoc]
          · refine List.Forall₂.cons ⟨⟨F, ctx, block, cv, vst, by rw [← hbv]; exact heqv, rfl⟩, ?_⟩ hfa
            have hrdi : ∀ e ∈ rest, e.1 ≠ di := fun e he => (hpc.1 e he).symm
            rw [huntouched di hrdi, List.get?_set_eq_of_lt _ hdi.1, hmv]

theorem value_pack_reorder_eq (fuel : Nat) (ctx : Context) (block : Block)
    (expd : Option HType) (ty : HType) (loc : Nat) (m s : Symbol)
    (tys : List BaseType) (tfields : List (Symbol × Nat × BaseType × TExp))
    (tf : List (Nat × Symbol × Nat × BaseType × TExp))
    (c1 : Context) (b1 : Block) (fout : List (Option (Symbol × BaseType × HExp)))
    (h1 : pack_texp_fields
      ((ctx.add_used_fields s (tfields.map (fun f => f.1))).fields m s) tfields = some tf)
    (h2 : (sort_by_key (fun (_, _, eidx, _, _) => eidx) tf).any
      (fun (decl_idx, _, exp_idx, _, _) => decl_idx ≠ exp_idx) = true)
    (h3 : pack_reorder_fields fuel (ctx.add_used_fields s (tfields.map (fun f => f.1))) block
      (sort_by_key (fun (_, _, eidx, _, _) => eidx) tf)
      (List.replicate
        ((((ctx.add_used_fields s (tfields.map (fun f => f.1))).fields m s).map
          (fun fm => fm.length)).getD 0) none) = some (c1, b1, fout)) :
    value (fuel + 1) ctx block expd (.mk ty loc (.pack m s tys tfields)) =
      maybe_freeze fuel c1 b1 expd
        (some (.mk ty loc (.pack s tys (fout.filterMap id)))) := by
  simp only [value, is_statement, TExp.e, TExp.ty, TExp.loc, if_false, Bool.false_eq_true]
  rw [h1]
  dsimp only
  rw [h2]
  simp only [Bool.not_true, Bool.false_eq_true, if_false]
  rw [h3]

theorem value_u64_literal_inv (fl : Nat) (c : Context) (b : Block) (loc n : Nat)
    (c2 : Context) (b2 : Block) (res : Option HExp)
    (h : value fl c b (some (.single (.base .u64)))
      (.mk (.single (.base .u64)) loc (.value (.u64 n))) = some (c2, b2, res)) :
    ∃ ex, res = some ex ∧ ex.ty = .single (.base .u64) ∧ ex.is_unreachable = false := by
  match fl with
  | 0 => exact Option.noConfusion h
  | f + 1 =>
    simp only [value, is_statement, TExp.e, TExp.ty, TExp.loc, if_false,
      Bool.false_eq_true] at h
    match f with
    | 0 => exact Option.noConfusion h
    | g + 1 =>
      simp only [maybe_freeze, HExp.is_unreachable, HExp.e, Bool.false_eq_true,
        if_false] at h
      match g with
      | 0 => exact Option.noConfusion h
      | k + 1 =>
        simp only [freeze, HExp.ty, needs_freeze, needs_freeze_single,
          Bool.false_eq_true, if_false] at h
        simp only [Option.some.injEq, Prod.mk.injEq] at h
        obtain ⟨-, -, hres⟩ := h
        exact ⟨_, hres.symm, rfl, rfl⟩

/-- Claim C4: for a struct pack whose field expressions are written out of
declaration order, the lowering (i) feeds `pack_reorder_fields` the field
tuples sorted by expression index, i.e. in source order (the sort is a
permutation sorted on the expression index), (ii) `value`'s `E::Pack` arm in
the reorder case is exactly that loop followed by packing the filled slots in
declared order, and (iii) the loop lowers each field expression in source
order, immediately binds each result to a fresh temporary via `bind_exp`
(strictly increasing temporary counters), appends those segments to the block
in source order, and fills the slot at each field's declaration index with a
move out of that field's temporary, leaving all other slots untouched. -/
theorem pack_fields_reordered_lowering :
    (∀ (tf : List (Nat × Symbol × Nat × BaseType × TExp)),
      List.Pairwise (fun a b => a.2.2.1 ≤ b.2.2.1)
        (sort_by_key (fun (_, _, eidx, _, _) => eidx) tf) ∧
      (sort_by_key (fun (_, _, eidx, _, _) => eidx) tf).Perm tf) ∧
    (∀ (fuel : Nat) (ctx : Context) (block : Block) (expd : Option HType) (ty : HType)
      (loc : Nat) (m s : Symbol) (tys : List BaseType)
      (tfields : List (Symbol × Nat × BaseType × TExp))
      (tf : List (Nat × Symbol × Nat × BaseType × TExp)) (c1 : Context) (b1 : Block)
      (fout : List (Option (Symbol × BaseType × HExp))),
      pack_texp_fields ((ctx.add_used_fields s (tfields.map (fun f => f.1))).fields m s)
        tfields = some tf →
      (sort_by_key (fun (_, _, eidx, _, _) => eidx) tf).any
        (fun (decl_idx, _, exp_idx, _, _) => decl_idx ≠ exp_idx) = true →
      pack_reorder_fields fuel (ctx.add_used_fields s (tfields.map (fun f => f.1))) block
        (sort_by_key (fun (_, _, eidx, _, _) => eidx) tf)
        (List.replicate
          ((((ctx.add_used_fields s (tfields.map (fun f => f.1))).fields m s).map
            (fun fm => fm.length)).getD 0) none) = some (c1, b1, fout) →
      value (fuel + 1) ctx block expd (.mk ty loc (.pack m s tys tfields)) =
        maybe_freeze fuel c1 b1 expd
          (some (.mk ty loc (.pack s tys (fout.filterMap id))))) ∧
    (∀ (tfs : List (Nat × Symbol × Nat × BaseType × TExp)) (fuel : Nat) (ctx : Context)
      (block : Block) (fields : List (Option (Symbol × BaseType × HExp)))
      (ctx' : Context) (block' : Block) (fields' : List (Option (Symbol × BaseType × HExp))),
      pack_reorder_fields fuel ctx block tfs fields = some (ctx', block', fields') →
      (∀ e ∈ tfs, e.1 < fields.length ∧ fields.get? e.1 = some none) →
      List.Pairwise (fun a b => a.1 ≠ b.1) tfs →
      (∀ e ∈ tfs, ∀ fl c b c2 b2 res,
        value fl c b (some (.single (.base e.2.2.2.1))) e.2.2.2.2 = some (c2, b2, res) →
        ∃ ex, res = some ex ∧ ex.ty = .single (.base e.2.2.2.1) ∧
          ex.is_unreachable = false) →
      fields'.length = fields.length ∧
      (∀ j, (∀ e ∈ tfs, e.1 ≠ j) → fields'.get? j = fields.get? j) ∧
      ∃ segs : List (Block × Nat × HExp),
        List.Chain' (fun a b => a.2.1 < b.2.1) segs ∧
        (∀ s ∈ segs, ctx.tmp_counter < s.2.1 ∧ s.2.1 ≤ ctx'.tmp_counter) ∧
        block' = block ++ (segs.map (fun s => s.1)).flatten ∧
        List.Forall₂ (PackSegSpec fields') tfs segs) :=
  ⟨fun tf => ⟨sort_by_key_sorted _ tf, sort_by_key_perm _ tf⟩,
    value_pack_reorder_eq, pack_reorder_fields_run⟩

/-- Witness for C4: a two-field struct `S { x, y }` packed with `y` written
first; the loop yields temporaries `%#1` and `%#2`, the binding assignments in
source order, and the slots `x`, `y` in declared order moving the temporaries. -/
theorem pack_fields_reordered_lowering_witness :
    pack_reorder_fields 9 c4ctx [] c4stf [none, none] =
      some (c4ctxF, [c4cmd1, c4cmd2], c4fieldsF) ∧
    (c4fieldsF.length = 2 ∧
      (∀ j, (∀ e ∈ c4stf, e.1 ≠ j) →
        c4fieldsF.get? j = ([none, none] : List (Option (Symbol × BaseType × HExp))).get? j) ∧
      ∃ segs : List (Block × Nat × HExp),
        List.Chain' (fun a b => a.2.1 < b.2.1) segs ∧
        (∀ s ∈ segs, c4ctx.tmp_counter < s.2.1 ∧ s.2.1 ≤ c4ctxF.tmp_counter) ∧
        [c4cmd1, c4cmd2] = [] ++ (segs.map (fun s => s.1)).flatten ∧
        List.Forall₂ (PackSegSpec c4fieldsF) c4stf segs) := by
  have hrun : pack_reorder_fields 9 c4ctx [] c4stf [none, none] =
      some (c4ctxF, [c4cmd1, c4cmd2], c4fieldsF) := rfl
  refine ⟨hrun, pack_fields_reordered_lowering.2.2 c4stf 9 c4ctx [] [none, none]
    c4ctxF [c4cmd1, c4cmd2] c4fieldsF hrun ?_ ?_ ?_⟩
  · intro e he
    cases he with
    | head => exact ⟨by decide, rfl⟩
    | tail _ h2 =>
      cases h2 with
      | head => exact ⟨by decide, rfl⟩
      | tail _ h3 => cases h3
  · refine List.pairwise_cons.mpr ⟨?_, List.pairwise_singleton _ _⟩
    intro b hb
    cases hb with
    | head => decide
    | tail _ h2 => cases h2
  · intro e he
    cases he with
    | head => exact fun fl c b c2 b2 res h => value_u64_literal_inv fl c b 21 7 c2 b2 res h
    | tail _ h2 =>
      cases h2 with
      | head => exact fun fl c b c2 b2 res h => value_u64_literal_inv fl c b 22 9 c2 b2 res h
      | tail _ h3 => cases h3

end Hlir
